import Mathlib

/-
  Verification of the MyCoroutine runtime (scheduler + timer manager +
  I/O manager + hook layer) against its natural-language specification.

  Shallow embedding conventions:
  * machine integers are Nat; the pending-event counter (an atomic size_t
    in the source) is reduced mod 2^64 at every update;
  * time points (std::chrono::system_clock::time_point) are Nat milliseconds;
  * callbacks, fibers and scheduler pointers are abstracted to Nat tokens
    (object identity); a std::function that may be null is an Option;
  * fallible code returns Option (a `none` models a failed assert or
    undefined behaviour: the process aborts, so the state has no successor);
  * std::set<std::shared_ptr<Timer>, Timer::Comparator> is a list kept
    sorted by the comparator; insertion of an element equivalent to an
    existing one (neither compares less than the other) leaves the set
    unchanged, exactly as std::set::insert does.
-/

namespace nsCoroutine

/-! ## Timer and TimerManager (src/6hook/timer.cc, header in src/unnamed/part_002) -/

/-- One `Timer` object.  `tid` is the object's identity (the shared_ptr
address), `ms` is `_m_ms`, `next` is `_m_next` in absolute milliseconds,
`cb` records whether `_m_cb` is non-null. -/
structure Timer where
  tid : Nat
  recurring : Bool
  ms : Nat
  next : Nat
  cb : Bool
deriving DecidableEq, Repr

/-- Timer::Comparator::operator() : `lhs->_m_next < rhs->_m_next`.
It compares deadlines only; there is no tie-break. -/
def timerLt (lhs rhs : Timer) : Prop := lhs.next < rhs.next

instance : DecidablePred fun p : Timer × Timer => timerLt p.1 p.2 :=
  fun p => by unfold timerLt; infer_instance

/-- `std::set::insert` under Timer::Comparator: walk the ordered list;
an element with an equal deadline is *equivalent*, so the new timer is
not inserted and the set is unchanged. -/
def timersInsert : List Timer → Timer → List Timer
  | [], t => [t]
  | u :: rest, t =>
    if t.next < u.next then t :: u :: rest
    else if u.next < t.next then u :: timersInsert rest t
    else u :: rest

/-- Whether the iterator returned by `_m_timers.insert(timer).first`
equals `_m_timers.begin()` (computed on the pre-insertion set): true iff
the set was empty or the new deadline is at most the old first deadline. -/
def insertAtFront (l : List Timer) (t : Timer) : Bool :=
  match l with
  | [] => true
  | u :: _ => decide (t.next ≤ u.next)

/-- `std::set::find(self)` under the comparator finds an element
*equivalent* to self, i.e. the first element with the same deadline;
erase removes that element. -/
def timersEraseEq : List Timer → Nat → List Timer
  | [], _ => []
  | u :: rest, d => if u.next = d then rest else u :: timersEraseEq rest d

/-- TimerManager state: `_m_timers`, `_m_tickled`, `_m_previouseTimer`. -/
structure TMState where
  timers : List Timer
  tickled : Bool
  previouse : Nat
deriving DecidableEq, Repr

/-- TimerManager::TimerManager(): empty set, `_m_previouseTimer = now`. -/
def tmInit (now : Nat) : TMState := ⟨[], false, now⟩

/-- TimerManager::addTimer(std::shared_ptr<Timer>): insert, compute
`at_front = (it == begin()) && !_m_tickled`, and set `_m_tickled` when
at_front (onTimerInsertedAtFront is the IOManager tickle, an external
effect not recorded in this state). -/
def addTimerRaw (t : Timer) (s : TMState) : TMState :=
  let at_front := insertAtFront s.timers t && !s.tickled
  { s with timers := timersInsert s.timers t,
           tickled := if at_front then true else s.tickled }

/-- Timer::Timer(ms, cb, recurring, manager): `_m_next = now + ms`. -/
def newTimer (tid ms : Nat) (recurring : Bool) (now : Nat) : Timer :=
  ⟨tid, recurring, ms, now + ms, true⟩

/-- TimerManager::addTimer(ms, cb, recurring): construct and insert. -/
def addTimer (tid ms : Nat) (recurring : Bool) (now : Nat) (s : TMState) : TMState :=
  addTimerRaw (newTimer tid ms recurring now) s

/-- Timer::cancel(): null callback fails; otherwise clear the callback
and erase the element `find` locates (deadline equivalence). -/
def timerCancel (h : Timer) (s : TMState) : Bool × Timer × TMState :=
  if h.cb = false then (false, h, s)
  else (true, { h with cb := false },
        { s with timers := timersEraseEq s.timers h.next })

/-- Timer::refresh(): needs a live callback and a found element; erase
it, rebase `_m_next = now + _m_ms`, reinsert. -/
def timerRefresh (h : Timer) (now : Nat) (s : TMState) : Bool × Timer × TMState :=
  if h.cb = false then (false, h, s)
  else if s.timers.any (fun u => u.next = h.next) = false then (false, h, s)
  else
    let h' := { h with next := now + h.ms }
    (true, h', { s with timers := timersInsert (timersEraseEq s.timers h.next) h' })

/-- Timer::reset(ms, from_now): `ms == _m_ms && !from_now` returns true
touching nothing; then a null callback or a failed `find` returns false;
otherwise erase the found element, rebase from `now` or from
`_m_next - _m_ms`, update `_m_ms`, and re-add through addTimer. -/
def timerReset (h : Timer) (ms : Nat) (from_now : Bool) (now : Nat) (s : TMState) :
    Bool × Timer × TMState :=
  if ms = h.ms ∧ from_now = false then (true, h, s)
  else if h.cb = false then (false, h, s)
  else if s.timers.any (fun u => u.next = h.next) = false then (false, h, s)
  else
    let erased := timersEraseEq s.timers h.next
    let start := if from_now then now else h.next - h.ms
    let h' := { h with ms := ms, next := start + ms }
    (true, h', addTimerRaw h' { s with timers := erased })

/-- `~0ull`, returned by getNextTimer on an empty set. -/
def UINT64MAX : Nat := 2 ^ 64 - 1

/-- TimerManager::getNextTimer(): always clears `_m_tickled`; returns
`~0ull` if empty, 0 if the first deadline is ≤ now, else the difference. -/
def getNextTimer (now : Nat) (s : TMState) : Nat × TMState :=
  let s' := { s with tickled := false }
  match s.timers with
  | [] => (UINT64MAX, s')
  | t :: _ => if t.next ≤ now then (0, s') else (t.next - now, s')

/-- TimerManager::detectClockRollover(): rollover iff
`now < _m_previouseTimer - 1h`; always records `_m_previouseTimer = now`. -/
def detectClockRollover (now : Nat) (s : TMState) : Bool × TMState :=
  (decide (now + 3600000 < s.previouse), { s with previouse := now })

/-- The while loop of TimerManager::listExpiredCb, run with explicit
fuel; `none` means the fuel ran out with the loop still spinning (the
real loop has not terminated within that many iterations).  Each
iteration pops `*begin()`, pushes its callback, and reinserts a
recurring timer with `_m_next = now + _m_ms`. -/
def drainLoop : Nat → Nat → Bool → List Timer → List Nat → Option (List Nat × List Timer)
  | 0, _, _, _, _ => none
  | _ + 1, _, _, [], acc => some (acc.reverse, [])
  | fuel + 1, now, rollover, t :: rest, acc =>
    if rollover = true ∨ t.next ≤ now then
      if t.recurring then
        drainLoop fuel now rollover (timersInsert rest { t with next := now + t.ms }) (t.tid :: acc)
      else
        drainLoop fuel now rollover rest (t.tid :: acc)
    else some (acc.reverse, t :: rest)

/-- TimerManager::listExpiredCb: detect rollover, then drain. -/
def listExpiredCb (fuel now : Nat) (s : TMState) : Option (List Nat × TMState) :=
  let rs := detectClockRollover now s
  match drainLoop fuel now rs.1 rs.2.timers [] with
  | none => none
  | some (cbs, timers') => some (cbs, { rs.2 with timers := timers' })

/-- Reachable TimerManager states: the constructor followed by any
sequence of the public operations. -/
inductive TMReachable : TMState → Prop where
  | init : ∀ now, TMReachable (tmInit now)
  | stepAdd : ∀ {s} tid ms recurring now, TMReachable s →
      TMReachable (addTimer tid ms recurring now s)
  | stepCancel : ∀ {s} h, TMReachable s → TMReachable (timerCancel h s).2.2
  | stepRefresh : ∀ {s} h now, TMReachable s → TMReachable (timerRefresh h now s).2.2
  | stepReset : ∀ {s} h ms fn now, TMReachable s → TMReachable (timerReset h ms fn now s).2.2
  | stepNext : ∀ {s} now, TMReachable s → TMReachable (getNextTimer now s).2
  | stepExpired : ∀ {s} fuel now cbs s', TMReachable s →
      listExpiredCb fuel now s = some (cbs, s') → TMReachable s'

/-- Strict total ordering of the timer set by deadline: every element
comes strictly before every later one. -/
def timersSorted (l : List Timer) : Prop := List.Pairwise (fun a b => a.next < b.next) l

/-! ## Scheduler task submission (src/5ioScheduler/ioManager.h scheduleLock,
src/3scheduler/scheduler.cc start/stop/stopping) -/

/-- A ScheduleTask: a fiber handle or a bare callback, plus a thread
affinity (-1 = any). -/
structure ScheduleTask where
  fiber : Option Nat
  cb : Option Nat
  thread : Int
deriving DecidableEq, Repr

/-- The error messages the scheduler prints to std::cerr. -/
inductive LogEvent where
  | schedulerStopped
deriving DecidableEq, Repr

/-- The scheduler fields touched by scheduleLock / start / stop /
stopping; `errLog` records error-level messages. -/
structure SchedState where
  tasks : List ScheduleTask
  stopping : Bool
  activeThreadCount : Nat
  errLog : List LogEvent
deriving DecidableEq, Repr

def schedInit : SchedState := ⟨[], false, 0, []⟩

/-- Scheduler::scheduleLock: remember whether the queue was empty (that
decides the tickle), build the task, push it when it holds a fiber or a
callback.  There is no check of the stopping flag and nothing is
logged.  Returns the new state and whether tickle() was called. -/
def scheduleLock (f : Option Nat) (cbv : Option Nat) (thr : Int) (s : SchedState) :
    SchedState × Bool :=
  let need_tickle := s.tasks.isEmpty
  let task : ScheduleTask := ⟨f, cbv, thr⟩
  let s' := if f.isSome || cbv.isSome then { s with tasks := s.tasks ++ [task] } else s
  (s', need_tickle)

/-- Scheduler::stopping(): `_m_stopping && _m_tasks.empty() && _m_activeThreadCount == 0`. -/
def schedStopping (s : SchedState) : Bool :=
  s.stopping && s.tasks.isEmpty && s.activeThreadCount == 0

/-- Scheduler::stop(): returns at once when stopping() already holds,
otherwise sets `_m_stopping = true` (the tickles and joins are
thread-level effects outside this state). -/
def schedStop (s : SchedState) : SchedState :=
  if schedStopping s then s else { s with stopping := true }

/-- Scheduler::start(): on a stopped scheduler prints
"Scheduler is stopped" to std::cerr and returns (the thread spawning on
the live path is outside this state). -/
def schedStart (s : SchedState) : SchedState :=
  if s.stopping then { s with errLog := s.errLog ++ [LogEvent.schedulerStopped] } else s

/-! ## FdCtx and the hook's generic I/O template
(src/6hook/fdManager.h, src/test/myIOScheduler/hook.cc do_io) -/

/-- FdCtx: per-fd user-space bookkeeping of the hook layer. -/
structure FdCtx where
  isInit : Bool
  isSocket : Bool
  sysNonblock : Bool
  userNonblock : Bool
  isClosed : Bool
  recvTimeout : Nat
  sendTimeout : Nat
deriving DecidableEq, Repr

def SO_RCVTIMEO : Nat := 20
def SO_SNDTIMEO : Nat := 21

/-- FdCtx::getTimeout. -/
def FdCtx.getTimeout (c : FdCtx) (t : Nat) : Nat :=
  if t = SO_RCVTIMEO then c.recvTimeout
  else if t = SO_SNDTIMEO then c.sendTimeout
  else UINT64MAX

def EBADF : Nat := 9

/-- What the leading checks of do_io decide before any I/O is tried. -/
inductive DoIoFront where
  /-- fall through to `fun(fd, args...)` and return its result -/
  | callOriginal
  /-- set errno and return the given value without calling the original -/
  | returnError (errnoVal : Nat) (ret : Int)
  /-- continue into the retry/EAGAIN machinery with this timeout -/
  | proceedHooked (timeout : Nat)
deriving DecidableEq, Repr

/-- Lines 84-111 of do_io: hook disabled → original; no FdCtx →
original; closed → errno = EBADF, return -1; non-socket or
user-nonblock → original; else proceed with `ctx->getTimeout(timeout_so)`. -/
def doIoFront (hookEnable : Bool) (ctx : Option FdCtx) (timeout_so : Nat) : DoIoFront :=
  if hookEnable = false then .callOriginal
  else
    match ctx with
    | none => .callOriginal
    | some c =>
      if c.isClosed then .returnError EBADF (-1)
      else if !c.isSocket || c.userNonblock then .callOriginal
      else .proceedHooked (c.getTimeout timeout_so)

/-! ## FdManager registry (src/test/myIOScheduler/fdManager.cc) -/

/-- std::vector::resize with value-initialized (null) new entries:
keep the first `min n (length)` elements, pad with `none`. -/
def listResize (l : List (Option Nat)) (n : Nat) : List (Option Nat) :=
  List.ofFn (fun i : Fin n => l.getD i.1 none)

/-- FdManager::FdManager(): `m_datas.resize(64)`. -/
def fdMgrInit : List (Option Nat) := listResize [] 64

/-- FdManager::get(fd, auto_create), for a non-negative fd (the
`fd == -1` early return precedes this).  An FdCtx entry is abstracted to
the fd it was constructed with.  On a miss with auto_create the table is
resized to `fd * 1.5`, which C++ truncates: `(3 * fd) / 2`.  A `none`
result models the out-of-range write `m_datas[fd]` when the resize
target does not exceed fd (undefined behaviour). -/
def fdManagerGet (fd : Nat) (auto_create : Bool) (m : List (Option Nat)) :
    Option (Option Nat × List (Option Nat)) :=
  if m.length ≤ fd then
    if auto_create = false then some (none, m)
    else
      let m' := listResize m ((3 * fd) / 2)
      if fd < m'.length then some (some fd, m'.set fd (some fd))
      else none
  else
    if (m.getD fd none).isSome || !auto_create then some (m.getD fd none, m)
    else some (some fd, m.set fd (some fd))

/-! ## IOManager (src/6hook/ioManager.cc, header in src/5ioScheduler/ioManager.h) -/

def EPOLLIN : Nat := 1
def EPOLLOUT : Nat := 4
def EPOLLERR : Nat := 8
def EPOLLHUP : Nat := 16
def EPOLLET : Nat := 2147483648

/-- Bitwise NOT of a 32-bit int value, as used in `events & ~event`. -/
def MASK32 : Nat := 4294967295

def bnot32 (x : Nat) : Nat := MASK32 ^^^ x

/-- An event direction argument: READ = 0x1, WRITE = 0x4. -/
inductive Dir where
  | read
  | write
deriving DecidableEq, Repr

def Dir.mask : Dir → Nat
  | .read => 1
  | .write => 4

/-- IOManager::FdContext::EventContext: scheduler pointer, fiber
shared_ptr, callback — each possibly null, abstracted to tokens. -/
structure EventContext where
  scheduler : Option Nat
  fiber : Option Nat
  cb : Option Nat
deriving DecidableEq, Repr

def emptyEventContext : EventContext := ⟨none, none, none⟩

/-- IOManager::FdContext: fd number, armed `events` mask and the two
per-direction EventContexts. -/
structure FdContext where
  fd : Nat
  events : Nat
  read : EventContext
  write : EventContext
deriving DecidableEq, Repr

/-- FdContext::getEventContext. -/
def FdContext.getEventContext (c : FdContext) : Dir → EventContext
  | .read => c.read
  | .write => c.write

def FdContext.setEventContext (c : FdContext) : Dir → EventContext → FdContext
  | .read, e => { c with read := e }
  | .write, e => { c with write := e }

/-- FdContext::triggerEvent: `assert(events & event)` (failure aborts,
modelled as `none`); clear the bit; hand the stored fiber or callback to
`ctx.scheduler->scheduleLock` (a null scheduler dereference is undefined,
also `none`; the enqueue itself lands in that scheduler's queue, outside
this state); resetEventContext. -/
def FdContext.triggerEvent (c : FdContext) (d : Dir) : Option FdContext :=
  if c.events &&& d.mask = 0 then none
  else
    let c₁ : FdContext := { c with events := c.events &&& bnot32 d.mask }
    match (c₁.getEventContext d).scheduler with
    | none => none
    | some _ => some (c₁.setEventContext d emptyEventContext)

/-- A fresh `new FdContext()` with its fd field set to its index. -/
def mkFdContext (i : Nat) : FdContext := ⟨i, 0, emptyEventContext, emptyEventContext⟩

/-- IOManager::contextResize: `_m_fdContexts.resize(size)` followed by
the loop that fills every null slot with a fresh context carrying its
index. -/
def contextResize (l : List FdContext) (n : Nat) : List FdContext :=
  List.ofFn (fun i : Fin n =>
    if h : i.1 < l.length then l.get ⟨i.1, h⟩ else mkFdContext i.1)

/-- The kernel epoll registration table: fd ↦ registered event mask. -/
def EpollReg : Type := Nat → Option Nat

inductive EpollOp where
  | add
  | mod
  | del
deriving DecidableEq, Repr

/-- epoll_ctl: ADD fails (EEXIST) on a registered fd, MOD and DEL fail
(ENOENT) on an unregistered one; `none` is the failing return -1. -/
def epollCtl (ep : EpollReg) (op : EpollOp) (fd : Nat) (ev : Nat) : Option EpollReg :=
  match op with
  | .add =>
    match ep fd with
    | some _ => none
    | none => some (fun x => if x = fd then some ev else ep x)
  | .mod =>
    match ep fd with
    | some _ => some (fun x => if x = fd then some ev else ep x)
    | none => none
  | .del =>
    match ep fd with
    | some _ => some (fun x => if x = fd then none else ep x)
    | none => none

/-- The IOManager fields the event bookkeeping touches: the FdContext
vector, `_m_pendingEventCount` (an atomic size_t: every update is taken
mod 2^64), the kernel registrations, and the read end of the self-pipe. -/
structure IOState where
  fdContexts : List FdContext
  pendingEventCount : Nat
  epoll : EpollReg
  tickleFd : Nat

def U64 : Nat := 2 ^ 64

def incr64 (p : Nat) : Nat := (p + 1) % U64

def decr64 (p : Nat) : Nat := (p + (U64 - 1)) % U64

/-- IOManager::IOManager: the pipe read end is registered with
`EPOLLIN | EPOLLET`, and `contextResize(32)` runs. -/
def initIOState (tfd : Nat) : IOState :=
  { fdContexts := contextResize [] 32
    pendingEventCount := 0
    epoll := fun x => if x = tfd then some (EPOLLIN ||| EPOLLET) else none
    tickleFd := tfd }

/-- The caller-side thread-locals addEvent reads: Scheduler::GetThis(),
Fiber::GetThis() and whether that fiber's state is RUNNING. -/
structure Caller where
  sched : Nat
  fiber : Nat
  fiberRunning : Bool
deriving DecidableEq, Repr

def ctxAt (s : IOState) (i : Nat) : FdContext := s.fdContexts.getD i (mkFdContext i)

def maskAt (s : IOState) (i : Nat) : Nat := (ctxAt s i).events

/-- The body of IOManager::addEvent after the table lookup/resize.
Returns `some (ret, s')`; `none` models a failed assert or an
out-of-range `_m_fdContexts[fd]` (both abort).  Mirrors the source:
refuse with -1 if the direction is already armed; epoll_ctl ADD/MOD of
`EPOLLET | events | event` (failure returns -1); `++_m_pendingEventCount`;
set the events bit; assert the EventContext is clean; store scheduler +
callback, or scheduler + current fiber asserting it is RUNNING. -/
def addEventCore (c : Caller) (fd : Nat) (d : Dir) (cb : Option Nat) (s : IOState) :
    Option (Int × IOState) :=
  if h : fd < s.fdContexts.length then
    let ctx := s.fdContexts.get ⟨fd, h⟩
    if ctx.events &&& d.mask ≠ 0 then some (-1, s)
    else
      let op := if ctx.events ≠ 0 then EpollOp.mod else EpollOp.add
      match epollCtl s.epoll op fd (EPOLLET ||| ctx.events ||| d.mask) with
      | none => some (-1, s)
      | some ep =>
        let ctx₁ : FdContext := { ctx with events := ctx.events ||| d.mask }
        let ectx := ctx₁.getEventContext d
        if ectx.scheduler.isSome || ectx.fiber.isSome || ectx.cb.isSome then none
        else
          match cb with
          | some f =>
            some (0, { s with
              fdContexts := s.fdContexts.set fd (ctx₁.setEventContext d ⟨some c.sched, none, some f⟩)
              pendingEventCount := incr64 s.pendingEventCount
              epoll := ep })
          | none =>
            if c.fiberRunning then
              some (0, { s with
                fdContexts := s.fdContexts.set fd (ctx₁.setEventContext d ⟨some c.sched, some c.fiber, none⟩)
                pendingEventCount := incr64 s.pendingEventCount
                epoll := ep })
            else none
  else none

/-- IOManager::addEvent: when `_m_fdContexts.size() <= fd` first run
`contextResize(fd * 1.5)` (C++ truncates the double: `3 * fd / 2`), then
proceed on the looked-up context. -/
def addEvent (c : Caller) (fd : Nat) (d : Dir) (cb : Option Nat) (s : IOState) :
    Option (Int × IOState) :=
  if fd < s.fdContexts.length then addEventCore c fd d cb s
  else addEventCore c fd d cb
    { s with fdContexts := contextResize s.fdContexts (3 * fd / 2) }

/-- IOManager::delEvent: false when the fd is beyond the table or the
direction is not armed; epoll_ctl MOD/DEL of the remaining mask (its
failing `return -1` converts to true with nothing changed);
`--_m_pendingEventCount`; clear the bit and the EventContext. -/
def delEvent (fd : Nat) (d : Dir) (s : IOState) : Option (Bool × IOState) :=
  if h : fd < s.fdContexts.length then
    let ctx := s.fdContexts.get ⟨fd, h⟩
    if ctx.events &&& d.mask = 0 then some (false, s)
    else
      let new_events := ctx.events &&& bnot32 d.mask
      let op := if new_events ≠ 0 then EpollOp.mod else EpollOp.del
      match epollCtl s.epoll op fd (EPOLLET ||| new_events) with
      | none => some (true, s)
      | some ep =>
        some (true, { s with
          fdContexts := s.fdContexts.set fd
            (({ ctx with events := new_events } : FdContext).setEventContext d emptyEventContext)
          pendingEventCount := decr64 s.pendingEventCount
          epoll := ep })
  else some (false, s)

/-- IOManager::cancelEvent: like delEvent but fires the stored
continuation through triggerEvent instead of merely clearing it. -/
def cancelEvent (fd : Nat) (d : Dir) (s : IOState) : Option (Bool × IOState) :=
  if h : fd < s.fdContexts.length then
    let ctx := s.fdContexts.get ⟨fd, h⟩
    if ctx.events &&& d.mask = 0 then some (false, s)
    else
      let new_events := ctx.events &&& bnot32 d.mask
      let op := if new_events ≠ 0 then EpollOp.mod else EpollOp.del
      match epollCtl s.epoll op fd (EPOLLET ||| new_events) with
      | none => some (true, s)
      | some ep =>
        match ctx.triggerEvent d with
        | none => none
        | some ctx₁ =>
          some (true, { s with
            fdContexts := s.fdContexts.set fd ctx₁
            pendingEventCount := decr64 s.pendingEventCount
            epoll := ep })
  else some (false, s)

/-- One `if (fd_ctx->events & X) { triggerEvent(X); --pending; }` arm of
cancelAll, acting on a (context, pending counter) pair. -/
def cancelAllFire (d : Dir) (cp : FdContext × Nat) : Option (FdContext × Nat) :=
  if cp.1.events &&& d.mask ≠ 0 then
    match cp.1.triggerEvent d with
    | none => none
    | some c' => some (c', decr64 cp.2)
  else some cp

/-- IOManager::cancelAll: false when the fd is beyond the table or
nothing is armed; epoll_ctl DEL (its failing `return -1` converts to
true with nothing changed); fire READ then WRITE, decrementing the
pending counter per armed direction; `assert(fd_ctx->events == 0)`. -/
def cancelAll (fd : Nat) (s : IOState) : Option (Bool × IOState) :=
  if h : fd < s.fdContexts.length then
    let ctx := s.fdContexts.get ⟨fd, h⟩
    if ctx.events = 0 then some (false, s)
    else
      match epollCtl s.epoll EpollOp.del fd 0 with
      | none => some (true, s)
      | some ep =>
        match cancelAllFire Dir.read (ctx, s.pendingEventCount) with
        | none => none
        | some cp₁ =>
          match cancelAllFire Dir.write cp₁ with
          | none => none
          | some cp₂ =>
            if cp₂.1.events = 0 then
              some (true, { s with
                fdContexts := s.fdContexts.set fd cp₂.1
                pendingEventCount := cp₂.2
                epoll := ep })
            else none
  else some (false, s)

/-- The `real_events` the idle loop computes from a reported epoll mask:
EPOLLERR/EPOLLHUP are coerced into `(EPOLLIN | EPOLLOUT) & events`, then
EPOLLIN contributes READ and EPOLLOUT contributes WRITE. -/
def realEvents (rep m : Nat) : Nat :=
  let repC := if rep &&& (EPOLLERR ||| EPOLLHUP) ≠ 0
              then rep ||| ((EPOLLIN ||| EPOLLOUT) &&& m) else rep
  (if repC &&& EPOLLIN ≠ 0 then 1 else 0) ||| (if repC &&& EPOLLOUT ≠ 0 then 4 else 0)

/-- One `if (real_events & X) { triggerEvent(X); --pending; }` arm of the
idle loop's per-event handling. -/
def idleFire (d : Dir) (real : Nat) (cp : FdContext × Nat) : Option (FdContext × Nat) :=
  if real &&& d.mask ≠ 0 then
    match cp.1.triggerEvent d with
    | none => none
    | some c' => some (c', decr64 cp.2)
  else some cp

/-- The per-fd part of one IOManager::idle iteration (lines 453-500):
the FdContext recovered from `event.data.ptr` is the one at index `i`
(an invalid pointer is undefined: `none`); compute `real_events`; skip
when nothing armed is reported; epoll_ctl MOD/DEL down to the remaining
mask on `fd_ctx->fd` (failure: `continue`, nothing changed); fire READ
then WRITE per reported direction, decrementing the pending counter. -/
def idleHandleEvent (i : Nat) (rep : Nat) (s : IOState) : Option IOState :=
  if h : i < s.fdContexts.length then
    let ctx := s.fdContexts.get ⟨i, h⟩
    let real := realEvents rep ctx.events
    if ctx.events &&& real = 0 then some s
    else
      let left := ctx.events &&& bnot32 real
      let op := if left ≠ 0 then EpollOp.mod else EpollOp.del
      match epollCtl s.epoll op ctx.fd (EPOLLET ||| left) with
      | none => some s
      | some ep =>
        match idleFire Dir.read real (ctx, s.pendingEventCount) with
        | none => none
        | some cp₁ =>
          match idleFire Dir.write real cp₁ with
          | none => none
          | some cp₂ =>
            some { s with
              fdContexts := s.fdContexts.set i cp₂.1
              pendingEventCount := cp₂.2
              epoll := ep }
  else none

/-- Reachable IOManager states: the constructor followed by any
interleaving of the event operations (the fd arguments fit in a C int). -/
inductive IOReachable : IOState → Prop where
  | init : ∀ tfd, IOReachable (initIOState tfd)
  | stepAdd : ∀ {s} c fd d cb r s', IOReachable s → fd < 2 ^ 31 →
      addEvent c fd d cb s = some (r, s') → IOReachable s'
  | stepDel : ∀ {s} fd d r s', IOReachable s →
      delEvent fd d s = some (r, s') → IOReachable s'
  | stepCancel : ∀ {s} fd d r s', IOReachable s →
      cancelEvent fd d s = some (r, s') → IOReachable s'
  | stepCancelAll : ∀ {s} fd r s', IOReachable s →
      cancelAll fd s = some (r, s') → IOReachable s'
  | stepIdle : ∀ {s} i rep s', IOReachable s →
      idleHandleEvent i rep s = some s' → IOReachable s'

/-- Number of armed directions in a mask: popcount over {READ, WRITE}. -/
def bitsRW (m : Nat) : Nat :=
  (if m &&& 1 ≠ 0 then 1 else 0) + (if m &&& 4 ≠ 0 then 1 else 0)

def ctxPop (c : FdContext) : Nat := bitsRW c.events

def pendingSum (l : List FdContext) : Nat := (l.map ctxPop).sum

/-- The kernel registration a mask should be mirrored by. -/
def regOf (m : Nat) : Option Nat := if m = 0 then none else some (EPOLLET ||| m)

/-- Masks only ever hold the READ and WRITE bits. -/
def maskOK (m : Nat) : Prop := m = 0 ∨ m = 1 ∨ m = 4 ∨ m = 5

instance : DecidablePred maskOK := fun m => by unfold maskOK; infer_instance

/-- The state a fresh manager (self-pipe on fd 100) reaches after one
successful `addEvent(0, READ, cb)`; used to exercise the add/del
round-trip on a concrete run. -/
def sAfterAdd : IOState :=
  ((addEvent ⟨7, 3, true⟩ 0 Dir.read (some 5) (initIOState 100)).getD
    (0, initIOState 100)).2

/-- The inductive invariant of the IOManager state: the pending counter
equals the popcount sum; the table length stays within [32, 2^32]; every
mask is a READ/WRITE subset and every context records its index; the
kernel registration mirrors the armed mask away from the self-pipe; the
self-pipe stays registered as EPOLLIN|EPOLLET with nothing armed on it. -/
structure IOInv (s : IOState) : Prop where
  pending : s.pendingEventCount = pendingSum s.fdContexts
  lenLB : 32 ≤ s.fdContexts.length
  lenUB : s.fdContexts.length ≤ 2 ^ 32
  masks : ∀ i, i < s.fdContexts.length → maskOK (maskAt s i)
  fds : ∀ i, i < s.fdContexts.length → (ctxAt s i).fd = i
  mirror : ∀ i, i ≠ s.tickleFd →
    s.epoll i = (if i < s.fdContexts.length then regOf (maskAt s i) else none)
  tickleReg : s.epoll s.tickleFd = some (EPOLLIN ||| EPOLLET)
  tickleMask : s.tickleFd < s.fdContexts.length → maskAt s s.tickleFd = 0

/-! ## Helper lemmas: the timer set under its comparator -/

theorem timersInsert_mem {l : List Timer} {t v : Timer}
    (h : v ∈ timersInsert l t) : v = t ∨ v ∈ l := by
  induction l with
  | nil =>
    simp only [timersInsert, List.mem_singleton] at h
    exact Or.inl h
  | cons u rest ih =>
    rw [timersInsert] at h
    split at h
    · rcases List.mem_cons.mp h with h' | h'
      exacts [Or.inl h', Or.inr h']
    · split at h
      · rcases List.mem_cons.mp h with h' | h'
        · exact Or.inr (List.mem_cons.mpr (Or.inl h'))
        · rcases ih h' with h'' | h''
          exacts [Or.inl h'', Or.inr (List.mem_cons.mpr (Or.inr h''))]
      · exact Or.inr h

theorem timersSorted_insert {l : List Timer} {t : Timer} (hs : timersSorted l) :
    timersSorted (timersInsert l t) := by
  induction l with
  | nil => simp [timersSorted, timersInsert]
  | cons u rest ih =>
    rw [timersSorted, List.pairwise_cons] at hs
    obtain ⟨hu, hrest⟩ := hs
    rw [timersSorted, timersInsert]
    split
    · rename_i h1
      rw [List.pairwise_cons]
      refine ⟨?_, List.pairwise_cons.mpr ⟨hu, hrest⟩⟩
      intro v hv
      rcases List.mem_cons.mp hv with rfl | hv'
      · exact h1
      · exact Nat.lt_trans h1 (hu v hv')
    · split
      · rename_i h1 h2
        rw [List.pairwise_cons]
        refine ⟨?_, ih hrest⟩
        intro v hv
        rcases timersInsert_mem hv with rfl | hv'
        · exact h2
        · exact hu v hv'
      · exact List.pairwise_cons.mpr ⟨hu, hrest⟩

theorem timersEraseEq_sublist (l : List Timer) (dl : Nat) :
    List.Sublist (timersEraseEq l dl) l := by
  induction l with
  | nil => simp [timersEraseEq]
  | cons u rest ih =>
    rw [timersEraseEq]
    split
    · exact List.sublist_cons_self u rest
    · exact ih.cons₂ u

theorem timersSorted_eraseEq {l : List Timer} {dl : Nat} (hs : timersSorted l) :
    timersSorted (timersEraseEq l dl) :=
  List.Pairwise.sublist (timersEraseEq_sublist l dl) hs

theorem getNextTimer_state (now : Nat) (s : TMState) :
    (getNextTimer now s).2 = { s with tickled := false } := by
  rcases hl : s.timers with _ | ⟨t, rest⟩ <;> simp only [getNextTimer, hl]
  split <;> rfl

theorem drainLoop_sorted :
    ∀ fuel now ro l acc cbs l', timersSorted l →
      drainLoop fuel now ro l acc = some (cbs, l') → timersSorted l' := by
  intro fuel
  induction fuel with
  | zero => intro _ _ _ _ _ _ _ h; exact absurd h (by simp [drainLoop])
  | succ n ih =>
    intro now ro l acc cbs l' hs h
    match l with
    | [] =>
      rw [drainLoop] at h
      cases h
      exact hs
    | t :: rest =>
      rw [drainLoop] at h
      split at h
      · split at h
        · exact ih _ _ _ _ _ _ (timersSorted_insert (List.Pairwise.of_cons hs)) h
        · exact ih _ _ _ _ _ _ (List.Pairwise.of_cons hs) h
      · cases h
        exact hs

theorem tmReachable_sorted {s : TMState} (h : TMReachable s) :
    timersSorted s.timers := by
  induction h with
  | init now => simp [tmInit, timersSorted]
  | stepAdd tid ms r now _ ih =>
    simpa [addTimer, addTimerRaw] using timersSorted_insert ih
  | stepCancel hd _ ih =>
    by_cases hc : hd.cb = false <;>
      simp [timerCancel, hc] <;>
      first
        | exact ih
        | exact timersSorted_eraseEq ih
  | stepRefresh hd now _ ih =>
    rw [timerRefresh]
    split
    · exact ih
    · split
      · exact ih
      · exact timersSorted_insert (timersSorted_eraseEq ih)
  | stepReset hd ms fn now _ ih =>
    rw [timerReset]
    split
    · exact ih
    · split
      · exact ih
      · split
        · exact ih
        · simpa [addTimerRaw] using timersSorted_insert (timersSorted_eraseEq ih)
  | stepNext now _ ih =>
    simpa [getNextTimer_state] using ih
  | stepExpired fuel now cbs s' _ hstep ih =>
    rw [listExpiredCb] at hstep
    rcases hd : drainLoop fuel now (detectClockRollover now _).1
        (detectClockRollover now _).2.timers [] with _ | ⟨cbs', l'⟩
    · rw [hd] at hstep; cases hstep
    · rw [hd] at hstep
      cases hstep
      exact drainLoop_sorted _ _ _ _ _ _ _ (by simpa [detectClockRollover] using ih) hd

theorem timersInsert_of_mem {l : List Timer} {t : Timer} (hs : timersSorted l)
    (h : ∃ u, u ∈ l ∧ u.next = t.next) : timersInsert l t = l := by
  induction l with
  | nil => rcases h with ⟨u, hu, _⟩; exact absurd hu (by simp)
  | cons v rest ih =>
    rcases h with ⟨u, hu, he⟩
    rw [timersSorted, List.pairwise_cons] at hs
    rcases List.mem_cons.mp hu with rfl | hu'
    · have h1 : ¬ t.next < u.next := by omega
      have h2 : ¬ u.next < t.next := by omega
      simp [timersInsert, h1, h2]
    · have hv : v.next < u.next := hs.1 u hu'
      have h1 : ¬ t.next < v.next := by omega
      have h2 : v.next < t.next := by omega
      rw [timersInsert, if_neg h1, if_pos h2, ih hs.2 ⟨u, hu', he⟩]

/-! ## Claim C6 -/

/-- C6 (counterexample): the comparator orders timers by deadline only
(`lhs->_m_next < rhs->_m_next`), with no identity tie-break, and
`_m_timers` is a `std::set`, so adding a second timer whose deadline
equals that of a timer already in the set does NOT retain both: the
second insert is a no-op and the new timer is dropped. -/
theorem addTimer_equal_deadline_drops_second :
    (addTimer 2 100 false 1000 (addTimer 1 100 false 1000 (tmInit 0))).timers =
      [⟨1, false, 100, 1100, true⟩] ∧
    (⟨2, false, 100, 1100, true⟩ : Timer) ∉
      (addTimer 2 100 false 1000 (addTimer 1 100 false 1000 (tmInit 0))).timers := by
  decide

/-- C6 (amended): in every reachable TimerManager state the timer set is
strictly ordered by deadline alone (so all deadlines are distinct), and
inserting a timer whose deadline equals that of a member leaves the set
unchanged — the new timer is not retained. -/
theorem timers_strictly_sorted_by_deadline :
    (∀ s, TMReachable s → timersSorted s.timers) ∧
    (∀ s t, TMReachable s → (∃ u, u ∈ s.timers ∧ u.next = t.next) →
      (addTimerRaw t s).timers = s.timers) := by
  constructor
  · exact fun _ h => tmReachable_sorted h
  · intro s t hr hex
    simpa [addTimerRaw] using timersInsert_of_mem (tmReachable_sorted hr) hex

theorem timers_strictly_sorted_by_deadline_witness :
    timersSorted (addTimer 1 100 false 1000 (tmInit 0)).timers ∧
    (addTimerRaw ⟨2, false, 100, 1100, true⟩
      (addTimer 1 100 false 1000 (tmInit 0))).timers =
      (addTimer 1 100 false 1000 (tmInit 0)).timers := by
  constructor
  · exact timers_strictly_sorted_by_deadline.1 _
      (TMReachable.stepAdd 1 100 false 1000 (TMReachable.init 0))
  · exact timers_strictly_sorted_by_deadline.2 _ _
      (TMReachable.stepAdd 1 100 false 1000 (TMReachable.init 0))
      ⟨⟨1, false, 100, 1100, true⟩, by decide, rfl⟩

/-! ## Claim C7 -/

theorem drainLoop_recurring_rollover_spins :
    ∀ fuel acc,
      drainLoop fuel 2800000 true [⟨1, true, 1000, 2801000, true⟩] acc = none := by
  intro fuel
  induction fuel with
  | zero => intro _; rfl
  | succ n ih =>
    intro acc
    rw [drainLoop]
    simp only [timersInsert]
    exact ih _

/-- C7 (code bug evidence): a drain that observes the clock two hours
earlier than the previous observation detects a rollover, but with a
recurring timer in the set the drain loop never terminates, for any
number of iterations: the popped timer is reinserted with
`_m_next = now + _m_ms` while the local `rollover` flag stays true, so
it is popped again immediately — the timer is popped over and over
instead of exactly once. -/
theorem listExpiredCb_rollover_recurring_never_terminates :
    ∀ fuel, listExpiredCb fuel 2800000
      ⟨[⟨1, true, 1000, 9000000, true⟩], true, 10000000⟩ = none := by
  intro fuel
  cases fuel with
  | zero => rfl
  | succ n =>
    have hd : drainLoop (n + 1) 2800000 true [⟨1, true, 1000, 9000000, true⟩] [] =
        none := by
      rw [drainLoop]
      simp only [timersInsert]
      exact drainLoop_recurring_rollover_spins n _
    simp [listExpiredCb, detectClockRollover, hd]

/-! ## Claim C8 -/

/-- C8: getNextTimer() always clears the tickled flag and never touches
the timer set; it returns UINT64_MAX on an empty set, 0 when the first
(i.e. earliest, by the sortedness invariant) deadline is at or before
`now`, and otherwise the milliseconds remaining until that deadline. -/
theorem getNextTimer_spec :
    ∀ now s, TMReachable s →
      (getNextTimer now s).2.tickled = false ∧
      (getNextTimer now s).2.timers = s.timers ∧
      (s.timers = [] → (getNextTimer now s).1 = UINT64MAX) ∧
      (∀ t, s.timers.head? = some t →
        (∀ u ∈ s.timers, t.next ≤ u.next) ∧
        (t.next ≤ now → (getNextTimer now s).1 = 0) ∧
        (now < t.next → (getNextTimer now s).1 = t.next - now)) := by
  intro now s hs
  have hsort := tmReachable_sorted hs
  refine ⟨by simp [getNextTimer_state], by simp [getNextTimer_state], ?_, ?_⟩
  · intro hl; simp [getNextTimer, hl]
  · intro t ht
    rcases hl : s.timers with _ | ⟨t₀, rest⟩
    · rw [hl] at ht; cases ht
    · rw [hl] at ht
      have hteq : t₀ = t := by simpa using ht
      rw [hl, timersSorted, List.pairwise_cons] at hsort
      refine ⟨?_, ?_, ?_⟩
      · intro u hu
        rw [← hteq]
        rcases List.mem_cons.mp hu with rfl | hu'
        · exact Nat.le_refl _
        · exact Nat.le_of_lt (hsort.1 u hu')
      · intro hle
        rw [← hteq] at hle
        simp [getNextTimer, hl, hle]
      · intro hlt
        rw [← hteq] at hlt
        have hn : ¬ t₀.next ≤ now := by omega
        rw [← hteq]
        simp [getNextTimer, hl, hn]

theorem getNextTimer_spec_witness :
    (getNextTimer 7 (tmInit 0)).1 = UINT64MAX ∧
    (getNextTimer 7 (tmInit 0)).2.tickled = false ∧
    (getNextTimer 2000 (addTimer 1 100 false 1000 (tmInit 0))).1 = 0 ∧
    (getNextTimer 500 (addTimer 1 100 false 1000 (tmInit 0))).1 = 600 := by
  refine ⟨?_, ?_, ?_, ?_⟩
  · exact (getNextTimer_spec 7 _ (TMReachable.init 0)).2.2.1 rfl
  · exact (getNextTimer_spec 7 _ (TMReachable.init 0)).1
  · exact ((getNextTimer_spec 2000 _
      (TMReachable.stepAdd 1 100 false 1000 (TMReachable.init 0))).2.2.2
      ⟨1, false, 100, 1100, true⟩ rfl).2.1 (by decide)
  · exact ((getNextTimer_spec 500 _
      (TMReachable.stepAdd 1 100 false 1000 (TMReachable.init 0))).2.2.2
      ⟨1, false, 100, 1100, true⟩ rfl).2.2 (by decide)

/-! ## Claim C10 -/

/-- C10 (counterexample): Timer::reset on a timer that is NOT in the set
but has a live callback and shares its deadline with a member does not
return false unchanged: `_m_timers.find(shared_from_this())` compares by
deadline equivalence, finds the *other* timer, erases it, and reinserts
the rebased handle — reset returns true and the set is rewritten. -/
theorem timerReset_absent_equal_deadline_cex :
    (timerReset ⟨2, false, 60, 100, true⟩ 70 true 500
      ⟨[⟨1, false, 50, 100, true⟩], false, 0⟩).1 = true ∧
    (timerReset ⟨2, false, 60, 100, true⟩ 70 true 500
      ⟨[⟨1, false, 50, 100, true⟩], false, 0⟩).2.2.timers =
      [⟨2, false, 70, 570, true⟩] ∧
    (⟨2, false, 60, 100, true⟩ : Timer) ∉ ([⟨1, false, 50, 100, true⟩] : List Timer) := by
  decide

/-- C10 (amended): reset(ms, from_now) with from_now = false and ms
equal to the current period returns true and changes nothing (even with
a cleared callback or a timer absent from the set); any other reset of a
timer with a cleared callback returns false and changes nothing; and any
other reset of a live-callback timer whose deadline matches **no**
member of the set returns false and changes nothing.  (When the absent
timer's deadline does match a member, reset erases that member and
returns true — the counterexample above.) -/
theorem timerReset_spec :
    (∀ h now s, timerReset h h.ms false now s = (true, h, s)) ∧
    (∀ h ms fn now s, ¬(ms = h.ms ∧ fn = false) → h.cb = false →
      timerReset h ms fn now s = (false, h, s)) ∧
    (∀ h ms fn now s, ¬(ms = h.ms ∧ fn = false) → h.cb = true →
      (∀ u ∈ s.timers, u.next ≠ h.next) →
      timerReset h ms fn now s = (false, h, s)) := by
  refine ⟨?_, ?_, ?_⟩
  · intro h now s; simp [timerReset]
  · intro h ms fn now s h1 h2; simp [timerReset, h1, h2]
  · intro h ms fn now s h1 h2 h3
    have hany : (s.timers.any fun u => decide (u.next = h.next)) = false := by
      rw [List.any_eq_false]
      intro u hu
      simpa using h3 u hu
    simp [timerReset, h1, h2, hany]

theorem timerReset_spec_witness :
    timerReset ⟨1, false, 50, 100, true⟩ 50 false 999 ⟨[], false, 0⟩ =
      (true, ⟨1, false, 50, 100, true⟩, ⟨[], false, 0⟩) ∧
    timerReset ⟨1, false, 50, 100, false⟩ 60 false 999 ⟨[], false, 0⟩ =
      (false, ⟨1, false, 50, 100, false⟩, ⟨[], false, 0⟩) ∧
    timerReset ⟨1, false, 50, 100, true⟩ 60 false 999
      ⟨[⟨3, false, 10, 40, true⟩], false, 0⟩ =
      (false, ⟨1, false, 50, 100, true⟩, ⟨[⟨3, false, 10, 40, true⟩], false, 0⟩) := by
  refine ⟨timerReset_spec.1 ⟨1, false, 50, 100, true⟩ 999 ⟨[], false, 0⟩,
    timerReset_spec.2.1 ⟨1, false, 50, 100, false⟩ 60 false 999 ⟨[], false, 0⟩
      (by decide) rfl,
    timerReset_spec.2.2 ⟨1, false, 50, 100, true⟩ 60 false 999
      ⟨[⟨3, false, 10, 40, true⟩], false, 0⟩ (by decide) rfl (by decide)⟩

/-! ## Claim C4 -/

/-- C4 (counterexample): with the hook enabled and a registered FdCtx
marked closed, do_io does NOT call the original function: it sets
`errno = EBADF` and returns -1 (hook.cc lines 100-105). -/
theorem doIoFront_closed_cex :
    doIoFront true (some ⟨true, true, true, false, true, 5, 5⟩) SO_RCVTIMEO =
      DoIoFront.returnError EBADF (-1) ∧
    DoIoFront.returnError EBADF (-1) ≠ DoIoFront.callOriginal := by
  decide

/-- C4 (amended): for every intercepted I/O call executed with the hook
enabled on an fd whose registered context is marked closed, the generic
I/O template sets errno to EBADF and returns -1 without calling the
original function. -/
theorem doIoFront_closed_spec :
    ∀ c t, c.isClosed = true →
      doIoFront true (some c) t = DoIoFront.returnError EBADF (-1) := by
  intro c t h
  simp [doIoFront, h]

theorem doIoFront_closed_spec_witness :
    doIoFront true (some ⟨true, true, true, false, true, 200, 300⟩) SO_SNDTIMEO =
      DoIoFront.returnError EBADF (-1) :=
  doIoFront_closed_spec ⟨true, true, true, false, true, 200, 300⟩ SO_SNDTIMEO rfl

/-! ## Claim C5 -/

/-- C5 (counterexample): submitting a task after stop() has set the
stopping flag is NOT a no-op: scheduleLock has no stopping check, so the
task is appended to the queue, and nothing is logged. -/
theorem scheduleLock_after_stop_cex :
    (schedStop schedInit).stopping = true ∧
    (schedStop schedInit).tasks = [] ∧
    (scheduleLock (some 1) none (-1) (schedStop schedInit)).1.tasks =
      [⟨some 1, none, -1⟩] ∧
    (scheduleLock (some 1) none (-1) (schedStop schedInit)).1.errLog = [] := by
  decide

/-- C5 (amended): scheduleLock ignores the stopping flag entirely: a
task carrying a fiber or callback submitted after stop() is appended to
the queue exactly as on a running scheduler, and no error is logged
(only start() refuses on a stopped scheduler with an error message). -/
theorem scheduleLock_ignores_stopping :
    ∀ s f cbv thr, s.stopping = true → (f.isSome || cbv.isSome) = true →
      (scheduleLock f cbv thr s).1.tasks = s.tasks ++ [⟨f, cbv, thr⟩] ∧
      (scheduleLock f cbv thr s).1.errLog = s.errLog ∧
      (scheduleLock f cbv thr s).1.stopping = true := by
  intro s f cbv thr hstop hne
  simp [scheduleLock, hne, hstop]

theorem scheduleLock_ignores_stopping_witness :
    (scheduleLock (some 1) none (-1) (schedStop schedInit)).1.tasks =
      (schedStop schedInit).tasks ++ [⟨some 1, none, -1⟩] ∧
    (scheduleLock (some 1) none (-1) (schedStop schedInit)).1.errLog =
      (schedStop schedInit).errLog ∧
    (scheduleLock (some 1) none (-1) (schedStop schedInit)).1.stopping = true :=
  scheduleLock_ignores_stopping (schedStop schedInit) (some 1) none (-1)
    (by decide) (by decide)

/-! ## Claim C9 -/

theorem listResize_length (l : List (Option Nat)) (n : Nat) :
    (listResize l n).length = n := by
  simp [listResize, List.length_ofFn]

theorem contextResize_length (l : List FdContext) (n : Nat) :
    (contextResize l n).length = n := by
  simp [contextResize, List.length_ofFn]

theorem addEventCore_length {c : Caller} {fd : Nat} {d : Dir} {cb : Option Nat}
    {s : IOState} {r : Int} {s' : IOState}
    (h : addEventCore c fd d cb s = some (r, s')) :
    s'.fdContexts.length = s.fdContexts.length := by
  simp only [addEventCore] at h
  split at h
  all_goals try split at h
  all_goals try split at h
  all_goals try split at h
  all_goals try split at h
  all_goals try split at h
  all_goals try exact Option.noConfusion h
  all_goals
    simp only [Option.some.injEq, Prod.mk.injEq] at h
  all_goals rw [← h.2]
  all_goals simp

/-- C9 (counterexample): growing the registry for fd 65 (capacity 64)
resizes to `65 * 1.5` truncated, i.e. 97 entries — not the ceiling
`⌈1.5 × 65⌉ = 98` the claim states. -/
theorem fd_growth_not_ceiling_cex :
    (fdManagerGet 65 true fdMgrInit).isSome = true ∧
    ((fdManagerGet 65 true fdMgrInit).getD (none, [])).2.length = 97 ∧
    (3 * 65 + 1) / 2 = 98 ∧ (97 : Nat) ≠ 98 := by
  decide

/-- C9 (amended): for every fd at or beyond the current capacity of the
fd-context table (and likewise the process-wide registry), accessing it
grows the table to exactly `⌊1.5 × fd⌋ = 3 * fd / 2` entries (the C++
double-to-size_t conversion truncates). -/
theorem fd_table_growth_floor :
    (∀ fd m res m', m.length ≤ fd → fdManagerGet fd true m = some (res, m') →
      m'.length = 3 * fd / 2) ∧
    (∀ c fd d cb s r s', s.fdContexts.length ≤ fd →
      addEvent c fd d cb s = some (r, s') →
      s'.fdContexts.length = 3 * fd / 2) := by
  constructor
  · intro fd m res m' hlen h
    simp only [fdManagerGet, if_pos hlen, listResize_length] at h
    rw [if_neg (by simp)] at h
    split at h
    · simp only [Option.some.injEq, Prod.mk.injEq] at h
      rw [← h.2]
      simp [listResize_length]
    · simp at h
  · intro c fd d cb s r s' hlen h
    rw [addEvent, if_neg (by omega)] at h
    rw [addEventCore_length h]
    simp [contextResize_length]

theorem fd_table_growth_floor_witness :
    ((fdManagerGet 65 true fdMgrInit).getD (none, [])).2.length = 3 * 65 / 2 ∧
    ((addEvent ⟨0, 0, true⟩ 33 Dir.read (some 7) (initIOState 100)).getD
      (0, initIOState 0)).2.fdContexts.length = 3 * 33 / 2 := by
  constructor
  · obtain ⟨res, m', hm⟩ : ∃ res m', fdManagerGet 65 true fdMgrInit = some (res, m') :=
      ⟨_, _, rfl⟩
    rw [hm]
    exact fd_table_growth_floor.1 65 fdMgrInit res m' (by decide) hm
  · obtain ⟨r, s', hs⟩ : ∃ r s',
        addEvent ⟨0, 0, true⟩ 33 Dir.read (some 7) (initIOState 100) = some (r, s') :=
      ⟨_, _, rfl⟩
    rw [hs]
    exact fd_table_growth_floor.2 _ 33 _ _ _ r s' (by decide) hs

/-! ## Helper lemmas for the IOManager invariant -/

@[simp] theorem setEventContext_events (c : FdContext) (d : Dir) (e : EventContext) :
    (c.setEventContext d e).events = c.events := by cases d <;> rfl

@[simp] theorem setEventContext_fd (c : FdContext) (d : Dir) (e : EventContext) :
    (c.setEventContext d e).fd = c.fd := by cases d <;> rfl

theorem triggerEvent_some {c : FdContext} {d : Dir} {c' : FdContext}
    (h : c.triggerEvent d = some c') :
    c.events &&& d.mask ≠ 0 ∧ c'.events = c.events &&& bnot32 d.mask ∧ c'.fd = c.fd := by
  simp only [FdContext.triggerEvent] at h
  split at h
  · exact Option.noConfusion h
  · rename_i hne
    split at h
    · exact Option.noConfusion h
    · simp only [Option.some.injEq] at h
      refine ⟨hne, ?_, ?_⟩ <;> rw [← h] <;> simp

theorem incr64_eq {p : Nat} (h : p + 1 < U64) : incr64 p = p + 1 :=
  Nat.mod_eq_of_lt h

theorem decr64_eq {p : Nat} (h1 : 0 < p) (h2 : p < U64) : decr64 p = p - 1 := by
  have hU : U64 = 18446744073709551616 := by norm_num [U64]
  have he : p + (U64 - 1) = (p - 1) + 1 * U64 := by omega
  rw [decr64, he, Nat.add_mul_mod_self_right, Nat.mod_eq_of_lt (by omega)]

theorem epollCtl_add_of_none {ep0 : EpollReg} {fd : Nat} (ev : Nat)
    (h : ep0 fd = none) :
    epollCtl ep0 EpollOp.add fd ev = some (fun x => if x = fd then some ev else ep0 x) := by
  simp [epollCtl, h]

theorem epollCtl_mod_of_some {ep0 : EpollReg} {fd u : Nat} (ev : Nat)
    (h : ep0 fd = some u) :
    epollCtl ep0 EpollOp.mod fd ev = some (fun x => if x = fd then some ev else ep0 x) := by
  simp [epollCtl, h]

theorem epollCtl_del_of_some {ep0 : EpollReg} {fd u : Nat} (ev : Nat)
    (h : ep0 fd = some u) :
    epollCtl ep0 EpollOp.del fd ev = some (fun x => if x = fd then none else ep0 x) := by
  simp [epollCtl, h]

theorem epollCtl_add_some {ep0 ep' : EpollReg} {fd ev : Nat}
    (h : epollCtl ep0 EpollOp.add fd ev = some ep') :
    ep0 fd = none ∧ ep' = fun x => if x = fd then some ev else ep0 x := by
  rw [epollCtl] at h
  rcases hr : ep0 fd with _ | u <;> rw [hr] at h
  · exact ⟨rfl, (Option.some.inj h).symm⟩
  · exact Option.noConfusion h

theorem bitsRW_or {m : Nat} (d : Dir) (hm : maskOK m) (h0 : m &&& d.mask = 0) :
    bitsRW (m ||| d.mask) = bitsRW m + 1 ∧ maskOK (m ||| d.mask) ∧ (m ||| d.mask) ≠ 0 := by
  rcases hm with rfl | rfl | rfl | rfl <;> cases d <;> revert h0 <;> decide

theorem bitsRW_clear {m : Nat} (d : Dir) (hm : maskOK m) (h0 : m &&& d.mask ≠ 0) :
    bitsRW (m &&& bnot32 d.mask) + 1 = bitsRW m ∧ maskOK (m &&& bnot32 d.mask) ∧
      1 ≤ bitsRW m := by
  rcases hm with rfl | rfl | rfl | rfl <;> cases d <;> revert h0 <;> decide

theorem ctxPop_le (c : FdContext) : ctxPop c ≤ 2 := by
  rw [ctxPop, bitsRW]; split <;> split <;> omega

theorem pendingSum_le (l : List FdContext) : pendingSum l ≤ 2 * l.length := by
  induction l with
  | nil => simp [pendingSum]
  | cons c t ih =>
    have := ctxPop_le c
    simp only [pendingSum, List.map_cons, List.sum_cons, List.length_cons] at *
    omega

theorem pendingSum_get_le (l : List FdContext) (i : Nat) (h : i < l.length) :
    ctxPop (l.get ⟨i, h⟩) ≤ pendingSum l := by
  induction l generalizing i with
  | nil => cases h
  | cons c t ih =>
    cases i with
    | zero =>
      simp only [pendingSum, List.map_cons, List.sum_cons, List.get]
      exact Nat.le_add_right _ _
    | succ n =>
      have hn : n < t.length := by simpa using h
      have := ih n hn
      simp only [pendingSum, List.map_cons, List.sum_cons, List.get] at *
      omega

theorem pendingSum_set (l : List FdContext) (i : Nat) (c : FdContext) (h : i < l.length) :
    pendingSum (l.set i c) + ctxPop (l.get ⟨i, h⟩) = pendingSum l + ctxPop c := by
  induction l generalizing i with
  | nil => cases h
  | cons a t ih =>
    cases i with
    | zero =>
      simp only [List.set, pendingSum, List.map_cons, List.sum_cons, List.get]
      omega
    | succ n =>
      have hn : n < t.length := by simpa using h
      have := ih n hn
      simp only [List.set, pendingSum, List.map_cons, List.sum_cons, List.get] at *
      omega

theorem ctxPop_mk (i : Nat) : ctxPop (mkFdContext i) = 0 := by
  simp [ctxPop, mkFdContext, bitsRW]

theorem contextResize_get (l : List FdContext) (n i : Nat)
    (h : i < (contextResize l n).length) :
    (contextResize l n).get ⟨i, h⟩ =
      if h2 : i < l.length then l.get ⟨i, h2⟩ else mkFdContext i := by
  simp only [contextResize] at h ⊢
  rw [List.get_ofFn]
  rfl

theorem contextResize_getD_lt (l : List FdContext) (n i : Nat) (dc : FdContext)
    (h : i < n) :
    (contextResize l n).getD i dc =
      if h2 : i < l.length then l.get ⟨i, h2⟩ else mkFdContext i := by
  have hl : i < (contextResize l n).length := by rw [contextResize_length]; exact h
  rw [List.getD_eq_get _ _ hl, contextResize_get]

theorem contextResize_getD_ge (l : List FdContext) (n i : Nat) (dc : FdContext)
    (h : n ≤ i) : (contextResize l n).getD i dc = dc :=
  List.getD_eq_default _ _ (by rw [contextResize_length]; exact h)

theorem contextResize_self (l : List FdContext) : contextResize l l.length = l := by
  have hf : (fun i : Fin l.length =>
      if h : i.1 < l.length then l.get ⟨i.1, h⟩ else mkFdContext i.1) = l.get := by
    funext i
    rw [dif_pos i.isLt]
  rw [contextResize, hf, List.ofFn_get]

theorem pendingSum_concat (l : List FdContext) (c : FdContext) :
    pendingSum (l ++ [c]) = pendingSum l + ctxPop c := by
  simp [pendingSum]

theorem pendingSum_resize (l : List FdContext) (n : Nat) (h : l.length ≤ n) :
    pendingSum (contextResize l n) = pendingSum l := by
  induction n with
  | zero =>
    have : l.length = 0 := Nat.le_zero.mp h
    rw [← this, contextResize_self]
  | succ k ih =>
    rcases Nat.lt_or_ge l.length (k + 1) with hk | hk
    · have hk' : l.length ≤ k := by omega
      have hsplit : contextResize l (k + 1) = contextResize l k ++ [mkFdContext k] := by
        rw [contextResize, List.ofFn_succ', List.concat_eq_append]
        congr 1
        simp only [Fin.val_last]
        rw [dif_neg (Nat.not_lt.mpr hk')]
      rw [hsplit, pendingSum_concat, ih hk', ctxPop_mk]
      omega
    · have : l.length = k + 1 := by omega
      rw [← this, contextResize_self]

theorem getD_set_self (l : List FdContext) (i : Nat) (c dc : FdContext)
    (h : i < l.length) : (l.set i c).getD i dc = c := by
  rw [List.getD_eq_getD_get?, List.get?_set_eq_of_lt _ h]
  rfl

theorem getD_set_ne (l : List FdContext) {i j : Nat} (c dc : FdContext)
    (h : i ≠ j) : (l.set i c).getD j dc = l.getD j dc := by
  rw [List.getD_eq_getD_get?, List.get?_set_ne c _ h, ← List.getD_eq_getD_get?]

theorem ctxAt_eq_get {s : IOState} {i : Nat} (h : i < s.fdContexts.length) :
    ctxAt s i = s.fdContexts.get ⟨i, h⟩ := by
  rw [ctxAt, List.getD_eq_get _ _ h]

theorem maskAt_zero_of_ge {s : IOState} {i : Nat} (h : s.fdContexts.length ≤ i) :
    maskAt s i = 0 := by
  rw [maskAt, ctxAt, List.getD_eq_default _ _ h]
  rfl

/-- Under the invariant, an fd with something armed is not the self-pipe
and is registered in the kernel exactly as EPOLLET plus its mask. -/
theorem armed_epoll {s : IOState} {fd : Nat} (hI : IOInv s)
    (hfd : fd < s.fdContexts.length) (hm : maskAt s fd ≠ 0) :
    fd ≠ s.tickleFd ∧ s.epoll fd = some (EPOLLET ||| maskAt s fd) := by
  have hnt : fd ≠ s.tickleFd := by
    intro he
    exact hm (by rw [he]; exact hI.tickleMask (he ▸ hfd))
  have hmir := hI.mirror fd hnt
  rw [if_pos hfd] at hmir
  exact ⟨hnt, by rw [hmir, regOf, if_neg hm]⟩

theorem ioInv_init (tfd : Nat) : IOInv (initIOState tfd) := by
  have hlen : (initIOState tfd).fdContexts.length = 32 := contextResize_length [] 32
  have hctx : ∀ i, i < 32 → ctxAt (initIOState tfd) i = mkFdContext i := by
    intro i hi
    show (contextResize [] 32).getD i (mkFdContext i) = mkFdContext i
    rw [contextResize_getD_lt _ _ _ _ hi, dif_neg (by simp)]
  refine ⟨?_, by omega, by omega, ?_, ?_, ?_, ?_, ?_⟩
  · show (0 : Nat) = pendingSum (contextResize [] 32)
    rw [pendingSum_resize _ _ (by simp)]
    rfl
  · intro i hi
    rw [hlen] at hi
    rw [maskAt, hctx i hi]
    exact Or.inl rfl
  · intro i hi
    rw [hlen] at hi
    rw [hctx i hi]
    rfl
  · intro i hne
    have hne' : i ≠ tfd := hne
    show (if i = tfd then some (EPOLLIN ||| EPOLLET) else none) = _
    rw [if_neg hne']
    split
    · rename_i hi
      rw [hlen] at hi
      rw [maskAt, hctx i hi, regOf]
      rfl
    · rfl
  · show (if tfd = tfd then some (EPOLLIN ||| EPOLLET) else none) = _
    rw [if_pos rfl]
  · intro hi
    have hi' : tfd < 32 := hlen ▸ hi
    show (ctxAt (initIOState tfd) tfd).events = 0
    rw [hctx tfd hi']
    rfl

theorem masks_get {s : IOState} (hI : IOInv s) {i : Nat}
    (h : i < s.fdContexts.length) : maskOK (s.fdContexts.get ⟨i, h⟩).events := by
  have hm := hI.masks i h
  rwa [maskAt, ctxAt_eq_get h] at hm

theorem fds_get {s : IOState} (hI : IOInv s) {i : Nat}
    (h : i < s.fdContexts.length) : (s.fdContexts.get ⟨i, h⟩).fd = i := by
  have hm := hI.fds i h
  rwa [ctxAt_eq_get h] at hm

theorem pending_lt_U64 {s : IOState} (hI : IOInv s) : s.pendingEventCount < U64 := by
  have h1 := pendingSum_le s.fdContexts
  have h2 := hI.lenUB
  have h32 : (2 : Nat) ^ 32 = 4294967296 := by norm_num
  have hU : U64 = 18446744073709551616 := by norm_num [U64]
  rw [hI.pending]
  omega

theorem ctxPop_le_pending {s : IOState} (hI : IOInv s) {i : Nat}
    (h : i < s.fdContexts.length) :
    ctxPop (s.fdContexts.get ⟨i, h⟩) ≤ s.pendingEventCount := by
  rw [hI.pending]
  exact pendingSum_get_le _ _ h

/-- The common shape of every successful mutation of one fd context:
replace the context at `fd`, set the kernel registration for `fd` to
mirror the new mask, and move the pending counter to the new popcount
sum.  All invariant fields are preserved. -/
theorem update_inv {s : IOState} {fd : Nat} {ctxN : FdContext} {epN : Option Nat}
    {p' : Nat}
    (hI : IOInv s) (hfd : fd < s.fdContexts.length)
    (hok : maskOK ctxN.events)
    (hfdN : ctxN.fd = fd)
    (hepN : epN = regOf ctxN.events)
    (hnt : fd ≠ s.tickleFd)
    (hp : p' + ctxPop (s.fdContexts.get ⟨fd, hfd⟩) =
          pendingSum s.fdContexts + ctxPop ctxN) :
    IOInv { fdContexts := s.fdContexts.set fd ctxN
            pendingEventCount := p'
            epoll := fun x => if x = fd then epN else s.epoll x
            tickleFd := s.tickleFd } := by
  have hlen : (s.fdContexts.set fd ctxN).length = s.fdContexts.length :=
    List.length_set ..
  have hset := pendingSum_set s.fdContexts fd ctxN hfd
  refine ⟨?_, ?_, ?_, ?_, ?_, ?_, ?_, ?_⟩
  · show p' = pendingSum (s.fdContexts.set fd ctxN)
    omega
  · show 32 ≤ (s.fdContexts.set fd ctxN).length
    rw [hlen]; exact hI.lenLB
  · show (s.fdContexts.set fd ctxN).length ≤ 2 ^ 32
    rw [hlen]; exact hI.lenUB
  · intro i hi
    rw [hlen] at hi
    show maskOK ((s.fdContexts.set fd ctxN).getD i (mkFdContext i)).events
    by_cases hif : fd = i
    · subst hif
      rw [getD_set_self _ _ _ _ hfd]
      exact hok
    · rw [getD_set_ne _ _ _ hif]
      exact hI.masks i hi
  · intro i hi
    rw [hlen] at hi
    show ((s.fdContexts.set fd ctxN).getD i (mkFdContext i)).fd = i
    by_cases hif : fd = i
    · subst hif
      rw [getD_set_self _ _ _ _ hfd]
      exact hfdN
    · rw [getD_set_ne _ _ _ hif]
      exact hI.fds i hi
  · intro i hne
    show (if i = fd then epN else s.epoll i) = _
    by_cases hif : i = fd
    · subst hif
      rw [if_pos rfl, hlen, if_pos hfd]
      show epN = regOf ((s.fdContexts.set i ctxN).getD i (mkFdContext i)).events
      rw [getD_set_self _ _ _ _ hfd]
      exact hepN
    · rw [if_neg hif, hlen]
      have := hI.mirror i hne
      rw [this]
      split
      · show regOf (maskAt s i) =
          regOf ((s.fdContexts.set fd ctxN).getD i (mkFdContext i)).events
        rw [getD_set_ne _ _ _ (fun he => hif he.symm)]
        rfl
      · rfl
  · show (if s.tickleFd = fd then epN else s.epoll s.tickleFd) = _
    rw [if_neg (fun he => hnt he.symm)]
    exact hI.tickleReg
  · intro hi
    rw [hlen] at hi
    show ((s.fdContexts.set fd ctxN).getD s.tickleFd (mkFdContext s.tickleFd)).events = 0
    rw [getD_set_ne _ _ _ hnt]
    exact hI.tickleMask hi

theorem ioInv_resize {s : IOState} (hI : IOInv s) {n : Nat}
    (hge : s.fdContexts.length ≤ n) (hub : n ≤ 2 ^ 32) :
    IOInv { s with fdContexts := contextResize s.fdContexts n } := by
  have hctx : ∀ i, i < n →
      (contextResize s.fdContexts n).getD i (mkFdContext i) =
        if h2 : i < s.fdContexts.length then s.fdContexts.get ⟨i, h2⟩
        else mkFdContext i := fun i hi => contextResize_getD_lt _ _ _ _ hi
  have hlb := hI.lenLB
  refine ⟨?_, ?_, ?_, ?_, ?_, ?_, ?_, ?_⟩
  · show s.pendingEventCount = pendingSum (contextResize s.fdContexts n)
    rw [pendingSum_resize _ _ hge]
    exact hI.pending
  · show 32 ≤ (contextResize s.fdContexts n).length
    rw [contextResize_length]; omega
  · show (contextResize s.fdContexts n).length ≤ 2 ^ 32
    rw [contextResize_length]; exact hub
  · intro i hi
    rw [contextResize_length] at hi
    show maskOK ((contextResize s.fdContexts n).getD i (mkFdContext i)).events
    rw [hctx i hi]
    split
    · rename_i h2
      exact masks_get hI h2
    · exact Or.inl rfl
  · intro i hi
    rw [contextResize_length] at hi
    show ((contextResize s.fdContexts n).getD i (mkFdContext i)).fd = i
    rw [hctx i hi]
    split
    · rename_i h2
      exact fds_get hI h2
    · rfl
  · intro i hne
    have hne' : i ≠ s.tickleFd := hne
    have hmir := hI.mirror i hne'
    show s.epoll i = _
    rw [hmir, contextResize_length]
    by_cases h2 : i < s.fdContexts.length
    · rw [if_pos h2, if_pos (by omega)]
      show regOf (maskAt s i) =
        regOf ((contextResize s.fdContexts n).getD i (mkFdContext i)).events
      rw [hctx i (by omega), dif_pos h2, maskAt, ctxAt_eq_get h2]
    · rw [if_neg h2]
      split
      · rename_i hin
        show (none : Option Nat) = regOf ((contextResize s.fdContexts n).getD i (mkFdContext i)).events
        rw [hctx i hin, dif_neg h2]
        rfl
      · rfl
  · exact hI.tickleReg
  · intro hi
    rw [contextResize_length] at hi
    show ((contextResize s.fdContexts n).getD s.tickleFd (mkFdContext s.tickleFd)).events = 0
    rw [hctx _ hi]
    split
    · rename_i h2
      have := hI.tickleMask h2
      rwa [maskAt, ctxAt_eq_get h2] at this
    · rfl

theorem addEventCore_some {c : Caller} {fd : Nat} {d : Dir} {cb : Option Nat}
    {s : IOState} {r : Int} {s' : IOState} (hI : IOInv s)
    (h : addEventCore c fd d cb s = some (r, s')) :
    IOInv s' ∧ s'.tickleFd = s.tickleFd ∧
      (r = 0 → s'.pendingEventCount = s.pendingEventCount + 1) ∧
      (r ≠ 0 → s' = s) := by
  simp only [addEventCore] at h
  split at h
  case isFalse => exact Option.noConfusion h
  rename_i hfd
  split at h
  · simp only [Option.some.injEq, Prod.mk.injEq] at h
    obtain ⟨hr, rfl⟩ := h
    exact ⟨hI, rfl, fun h0 => absurd (h0 ▸ hr) (by decide), fun _ => rfl⟩
  · rename_i harm'
    have harm : (s.fdContexts.get ⟨fd, hfd⟩).events &&& d.mask = 0 := not_ne_iff.mp harm'
    split at h
    · simp only [Option.some.injEq, Prod.mk.injEq] at h
      obtain ⟨hr, rfl⟩ := h
      exact ⟨hI, rfl, fun h0 => absurd (h0 ▸ hr) (by decide), fun _ => rfl⟩
    · rename_i ep hep
      split at h
      · exact Option.noConfusion h
      · have key : fd ≠ s.tickleFd ∧ ep = fun x => if x = fd then
            some (EPOLLET ||| (s.fdContexts.get ⟨fd, hfd⟩).events ||| d.mask)
            else s.epoll x := by
          by_cases hev : (s.fdContexts.get ⟨fd, hfd⟩).events ≠ 0
          · rw [if_pos hev] at hep
            obtain ⟨hnt, hreg⟩ := armed_epoll hI hfd
              (by rwa [maskAt, ctxAt_eq_get hfd])
            rw [epollCtl_mod_of_some _ hreg] at hep
            exact ⟨hnt, (Option.some.inj hep).symm⟩
          · rw [if_neg hev] at hep
            obtain ⟨hnone, hep'⟩ := epollCtl_add_some hep
            refine ⟨fun he => ?_, hep'⟩
            rw [he, hI.tickleReg] at hnone
            exact Option.noConfusion hnone
        obtain ⟨hnt, rfl⟩ := key
        have hApply : ∀ e : EventContext,
            IOInv { fdContexts := s.fdContexts.set fd
                      ((({ s.fdContexts.get ⟨fd, hfd⟩ with
                          events := (s.fdContexts.get ⟨fd, hfd⟩).events ||| d.mask } :
                        FdContext)).setEventContext d e)
                    pendingEventCount := incr64 s.pendingEventCount
                    epoll := fun x => if x = fd then
                        some (EPOLLET ||| (s.fdContexts.get ⟨fd, hfd⟩).events ||| d.mask)
                      else s.epoll x
                    tickleFd := s.tickleFd } ∧
            incr64 s.pendingEventCount = s.pendingEventCount + 1 := by
          intro e
          obtain ⟨hb, hok, hne0⟩ := bitsRW_or d (masks_get hI hfd) harm
          have hincr : incr64 s.pendingEventCount = s.pendingEventCount + 1 := by
            apply incr64_eq
            have h1 := pendingSum_le s.fdContexts
            have h2 := hI.lenUB
            have h32 : (2 : Nat) ^ 32 = 4294967296 := by norm_num
            have hU : U64 = 18446744073709551616 := by norm_num [U64]
            rw [hI.pending]
            omega
          refine ⟨update_inv hI hfd ?_ ?_ ?_ hnt ?_, hincr⟩
          · rw [setEventContext_events]
            exact hok
          · rw [setEventContext_fd]
            exact fds_get hI hfd
          · rw [setEventContext_events, regOf, if_neg hne0, Nat.lor_assoc]
          · rw [hincr, hI.pending]
            have hcN : ctxPop ((({ s.fdContexts.get ⟨fd, hfd⟩ with
                events := (s.fdContexts.get ⟨fd, hfd⟩).events ||| d.mask } :
                FdContext)).setEventContext d e) =
                bitsRW ((s.fdContexts.get ⟨fd, hfd⟩).events ||| d.mask) := by
              rw [ctxPop, setEventContext_events]
            rw [hcN, hb]
            have hcg : ctxPop (s.fdContexts.get ⟨fd, hfd⟩) =
                bitsRW (s.fdContexts.get ⟨fd, hfd⟩).events := rfl
            rw [hcg]
            omega
        split at h
        · rename_i f
          simp only [Option.some.injEq, Prod.mk.injEq] at h
          obtain ⟨hr, rfl⟩ := h
          exact ⟨(hApply ⟨some c.sched, none, some f⟩).1, rfl,
            fun _ => (hApply ⟨some c.sched, none, some f⟩).2,
            fun h0 => absurd hr.symm h0⟩
        · split at h
          · simp only [Option.some.injEq, Prod.mk.injEq] at h
            obtain ⟨hr, rfl⟩ := h
            exact ⟨(hApply ⟨some c.sched, some c.fiber, none⟩).1, rfl,
              fun _ => (hApply ⟨some c.sched, some c.fiber, none⟩).2,
              fun h0 => absurd hr.symm h0⟩
          · exact Option.noConfusion h

theorem addEvent_some {c : Caller} {fd : Nat} {d : Dir} {cb : Option Nat}
    {s : IOState} {r : Int} {s' : IOState} (hI : IOInv s) (h31 : fd < 2 ^ 31)
    (h : addEvent c fd d cb s = some (r, s')) :
    IOInv s' ∧ s'.tickleFd = s.tickleFd ∧
      (r = 0 → s'.pendingEventCount = s.pendingEventCount + 1) ∧
      (r ≠ 0 → s'.pendingEventCount = s.pendingEventCount) := by
  rw [addEvent] at h
  split at h
  · obtain ⟨h1, h2, h3, h4⟩ := addEventCore_some hI h
    exact ⟨h1, h2, h3, fun h0 => by rw [h4 h0]⟩
  · rename_i hge'
    have hge : s.fdContexts.length ≤ fd := Nat.le_of_not_lt hge'
    have h31' : (2 : Nat) ^ 31 = 2147483648 := by norm_num
    have h32 : (2 : Nat) ^ 32 = 4294967296 := by norm_num
    have hub : 3 * fd / 2 ≤ 2 ^ 32 := by omega
    have hgen : s.fdContexts.length ≤ 3 * fd / 2 := by omega
    have hI₂ := ioInv_resize hI hgen hub
    obtain ⟨h1, h2, h3, h4⟩ := addEventCore_some hI₂ h
    refine ⟨h1, h2, fun h0 => h3 h0, fun h0 => by rw [h4 h0]⟩

theorem delEvent_some {fd : Nat} {d : Dir} {s : IOState} {r : Bool} {s' : IOState}
    (hI : IOInv s) (h : delEvent fd d s = some (r, s')) :
    IOInv s' ∧ s'.tickleFd = s.tickleFd ∧
      ((r = true ∧ s.pendingEventCount = s'.pendingEventCount + 1) ∨
       (r = false ∧ s' = s)) := by
  simp only [delEvent] at h
  split at h
  case isFalse =>
    simp only [Option.some.injEq, Prod.mk.injEq] at h
    obtain ⟨hr, rfl⟩ := h
    exact ⟨hI, rfl, Or.inr ⟨hr.symm, rfl⟩⟩
  rename_i hfd
  split at h
  · simp only [Option.some.injEq, Prod.mk.injEq] at h
    obtain ⟨hr, rfl⟩ := h
    exact ⟨hI, rfl, Or.inr ⟨hr.symm, rfl⟩⟩
  · rename_i harm
    have hm0 : maskAt s fd ≠ 0 := by
      rw [maskAt, ctxAt_eq_get hfd]
      intro h0
      exact harm (by rw [h0]; simp)
    obtain ⟨hnt, hreg⟩ := armed_epoll hI hfd hm0
    rw [maskAt, ctxAt_eq_get hfd] at hreg
    obtain ⟨hb, hok, hge1⟩ := bitsRW_clear d (masks_get hI hfd) harm
    have hcg : ctxPop (s.fdContexts.get ⟨fd, hfd⟩) =
        bitsRW (s.fdContexts.get ⟨fd, hfd⟩).events := rfl
    have hp1 : 1 ≤ s.pendingEventCount := by
      have := ctxPop_le_pending hI hfd
      omega
    have hdecr : decr64 s.pendingEventCount = s.pendingEventCount - 1 :=
      decr64_eq (by omega) (pending_lt_U64 hI)
    have hcN : ∀ e : EventContext, ctxPop ((({ s.fdContexts.get ⟨fd, hfd⟩ with
        events := (s.fdContexts.get ⟨fd, hfd⟩).events &&& bnot32 d.mask } :
        FdContext)).setEventContext d e) =
        bitsRW ((s.fdContexts.get ⟨fd, hfd⟩).events &&& bnot32 d.mask) := by
      intro e
      rw [ctxPop, setEventContext_events]
    by_cases hnew : (s.fdContexts.get ⟨fd, hfd⟩).events &&& bnot32 d.mask ≠ 0
    · rw [if_pos hnew, epollCtl_mod_of_some _ hreg, hdecr] at h
      simp only [Option.some.injEq, Prod.mk.injEq] at h
      obtain ⟨hr, rfl⟩ := h
      refine ⟨update_inv hI hfd ?_ ?_ ?_ hnt ?_, rfl, Or.inl ⟨hr.symm, by
        show s.pendingEventCount = s.pendingEventCount - 1 + 1
        omega⟩⟩
      · rw [setEventContext_events]; exact hok
      · rw [setEventContext_fd]; exact fds_get hI hfd
      · rw [setEventContext_events, regOf, if_neg hnew]
      · rw [hcN emptyEventContext, ← hI.pending, hcg]
        omega
    · have hnew0 : (s.fdContexts.get ⟨fd, hfd⟩).events &&& bnot32 d.mask = 0 :=
        not_ne_iff.mp hnew
      rw [if_neg hnew, epollCtl_del_of_some _ hreg, hdecr] at h
      simp only [Option.some.injEq, Prod.mk.injEq] at h
      obtain ⟨hr, rfl⟩ := h
      refine ⟨update_inv hI hfd ?_ ?_ ?_ hnt ?_, rfl, Or.inl ⟨hr.symm, by
        show s.pendingEventCount = s.pendingEventCount - 1 + 1
        omega⟩⟩
      · rw [setEventContext_events]; exact hok
      · rw [setEventContext_fd]; exact fds_get hI hfd
      · rw [setEventContext_events, hnew0]
        simp [regOf]
      · rw [hcN emptyEventContext, ← hI.pending, hcg]
        omega

theorem cancelEvent_some {fd : Nat} {d : Dir} {s : IOState} {r : Bool} {s' : IOState}
    (hI : IOInv s) (h : cancelEvent fd d s = some (r, s')) :
    IOInv s' ∧ s'.tickleFd = s.tickleFd ∧
      ((r = true ∧ s.pendingEventCount = s'.pendingEventCount + 1) ∨
       (r = false ∧ s' = s)) := by
  simp only [cancelEvent] at h
  split at h
  case isFalse =>
    simp only [Option.some.injEq, Prod.mk.injEq] at h
    obtain ⟨hr, rfl⟩ := h
    exact ⟨hI, rfl, Or.inr ⟨hr.symm, rfl⟩⟩
  rename_i hfd
  split at h
  · simp only [Option.some.injEq, Prod.mk.injEq] at h
    obtain ⟨hr, rfl⟩ := h
    exact ⟨hI, rfl, Or.inr ⟨hr.symm, rfl⟩⟩
  · rename_i harm
    have hm0 : maskAt s fd ≠ 0 := by
      rw [maskAt, ctxAt_eq_get hfd]
      intro h0
      exact harm (by rw [h0]; simp)
    obtain ⟨hnt, hreg⟩ := armed_epoll hI hfd hm0
    rw [maskAt, ctxAt_eq_get hfd] at hreg
    obtain ⟨hb, hok, hge1⟩ := bitsRW_clear d (masks_get hI hfd) harm
    have hcg : ctxPop (s.fdContexts.get ⟨fd, hfd⟩) =
        bitsRW (s.fdContexts.get ⟨fd, hfd⟩).events := rfl
    have hp1 : 1 ≤ s.pendingEventCount := by
      have := ctxPop_le_pending hI hfd
      omega
    have hdecr : decr64 s.pendingEventCount = s.pendingEventCount - 1 :=
      decr64_eq (by omega) (pending_lt_U64 hI)
    by_cases hnew : (s.fdContexts.get ⟨fd, hfd⟩).events &&& bnot32 d.mask ≠ 0
    · rw [if_pos hnew, epollCtl_mod_of_some _ hreg] at h
      rcases htr : (s.fdContexts.get ⟨fd, hfd⟩).triggerEvent d with _ | ctxN
      · rw [htr] at h
        exact Option.noConfusion h
      · rw [htr, hdecr] at h
        obtain ⟨-, hev, hfdN⟩ := triggerEvent_some htr
        simp only [Option.some.injEq, Prod.mk.injEq] at h
        obtain ⟨hr, rfl⟩ := h
        refine ⟨update_inv hI hfd ?_ ?_ ?_ hnt ?_, rfl, Or.inl ⟨hr.symm, by
          show s.pendingEventCount = s.pendingEventCount - 1 + 1
          omega⟩⟩
        · rw [hev]; exact hok
        · rw [hfdN]; exact fds_get hI hfd
        · rw [hev, regOf, if_neg hnew]
        · have hcN : ctxPop ctxN =
              bitsRW ((s.fdContexts.get ⟨fd, hfd⟩).events &&& bnot32 d.mask) := by
            rw [ctxPop, hev]
          rw [hcN, ← hI.pending, hcg]
          omega
    · have hnew0 : (s.fdContexts.get ⟨fd, hfd⟩).events &&& bnot32 d.mask = 0 :=
        not_ne_iff.mp hnew
      rw [if_neg hnew, epollCtl_del_of_some _ hreg] at h
      rcases htr : (s.fdContexts.get ⟨fd, hfd⟩).triggerEvent d with _ | ctxN
      · rw [htr] at h
        exact Option.noConfusion h
      · rw [htr, hdecr] at h
        obtain ⟨-, hev, hfdN⟩ := triggerEvent_some htr
        simp only [Option.some.injEq, Prod.mk.injEq] at h
        obtain ⟨hr, rfl⟩ := h
        refine ⟨update_inv hI hfd ?_ ?_ ?_ hnt ?_, rfl, Or.inl ⟨hr.symm, by
          show s.pendingEventCount = s.pendingEventCount - 1 + 1
          omega⟩⟩
        · rw [hev]; exact hok
        · rw [hfdN]; exact fds_get hI hfd
        · rw [hev, hnew0]
          simp [regOf]
        · have hcN : ctxPop ctxN =
              bitsRW ((s.fdContexts.get ⟨fd, hfd⟩).events &&& bnot32 d.mask) := by
            rw [ctxPop, hev]
          rw [hcN, ← hI.pending, hcg]
          omega

theorem cancelAllFire_cases {d : Dir} {cp cp' : FdContext × Nat}
    (h : cancelAllFire d cp = some cp') :
    (cp.1.events &&& d.mask = 0 ∧ cp' = cp) ∨
    (cp.1.events &&& d.mask ≠ 0 ∧ ∃ cN, cp.1.triggerEvent d = some cN ∧
      cp' = (cN, decr64 cp.2)) := by
  rw [cancelAllFire] at h
  split at h
  · rename_i hb
    rcases htr : cp.1.triggerEvent d with _ | cN <;> rw [htr] at h
    · exact Option.noConfusion h
    · exact Or.inr ⟨hb, cN, rfl, (Option.some.inj h).symm⟩
  · rename_i hb
    exact Or.inl ⟨not_ne_iff.mp hb, (Option.some.inj h).symm⟩

theorem cancelAll_some {fd : Nat} {s : IOState} {r : Bool} {s' : IOState}
    (hI : IOInv s) (h : cancelAll fd s = some (r, s')) :
    IOInv s' ∧ s'.tickleFd = s.tickleFd ∧
      s.pendingEventCount = s'.pendingEventCount + bitsRW (maskAt s fd) := by
  simp only [cancelAll] at h
  split at h
  case isFalse hge =>
    simp only [Option.some.injEq, Prod.mk.injEq] at h
    obtain ⟨hr, rfl⟩ := h
    refine ⟨hI, rfl, ?_⟩
    rw [maskAt_zero_of_ge (Nat.le_of_not_lt hge)]
    have : bitsRW 0 = 0 := by decide
    omega
  rename_i hfd
  split at h
  · rename_i hz
    simp only [Option.some.injEq, Prod.mk.injEq] at h
    obtain ⟨hr, rfl⟩ := h
    refine ⟨hI, rfl, ?_⟩
    rw [maskAt, ctxAt_eq_get hfd, hz]
    have : bitsRW 0 = 0 := by decide
    omega
  · rename_i hz
    have hm0 : maskAt s fd ≠ 0 := by
      rw [maskAt, ctxAt_eq_get hfd]
      exact hz
    obtain ⟨hnt, hreg⟩ := armed_epoll hI hfd hm0
    rw [maskAt, ctxAt_eq_get hfd] at hreg
    rw [epollCtl_del_of_some 0 hreg] at h
    dsimp only at h
    have hmask : maskAt s fd = (s.fdContexts.get ⟨fd, hfd⟩).events := by
      rw [maskAt, ctxAt_eq_get hfd]
    have hcg : ctxPop (s.fdContexts.get ⟨fd, hfd⟩) =
        bitsRW (s.fdContexts.get ⟨fd, hfd⟩).events := rfl
    have hple := ctxPop_le_pending hI hfd
    have hpU := pending_lt_U64 hI
    rcases hf1 : cancelAllFire Dir.read
        (s.fdContexts.get ⟨fd, hfd⟩, s.pendingEventCount) with _ | cp₁
    · rw [hf1] at h
      exact Option.noConfusion h
    rw [hf1] at h
    dsimp only at h
    rcases hf2 : cancelAllFire Dir.write cp₁ with _ | cp₂
    · rw [hf2] at h
      exact Option.noConfusion h
    rw [hf2] at h
    dsimp only at h
    split at h
    case isFalse => exact Option.noConfusion h
    rename_i hz2
    simp only [Option.some.injEq, Prod.mk.injEq] at h
    obtain ⟨hr, rfl⟩ := h
    have hmOK := masks_get hI hfd
    simp only [maskOK] at hmOK
    rcases hmOK with hm | hm | hm | hm
    · exact absurd hm hz
    · -- events = 1: READ fires, WRITE skips
      rcases cancelAllFire_cases hf1 with ⟨ha, -⟩ | ⟨-, cN, htr, hcp1⟩
      · rw [hm] at ha
        exact absurd ha (by decide)
      obtain ⟨-, hev, hfdN⟩ := triggerEvent_some htr
      rw [hm] at hev
      have hev0 : cN.events = 0 := by rw [hev]; decide
      subst hcp1
      rcases cancelAllFire_cases hf2 with ⟨-, hcp2⟩ | ⟨ha, -⟩
      · subst hcp2
        have hb1 : bitsRW 1 = 1 := by decide
        have hp1 : 1 ≤ s.pendingEventCount := by
          rw [hcg, hm, hb1] at hple
          omega
        have hdecr : decr64 s.pendingEventCount = s.pendingEventCount - 1 :=
          decr64_eq (by omega) hpU
        rw [hdecr]
        have hc0 : ctxPop cN = 0 := by rw [ctxPop, hev0]; decide
        refine ⟨update_inv hI hfd ?_ ?_ ?_ hnt ?_, rfl, ?_⟩
        · rw [hev0]; exact Or.inl rfl
        · rw [hfdN]; exact fds_get hI hfd
        · rw [hev0]; simp [regOf]
        · rw [hc0, ← hI.pending, hcg, hm, hb1]
          omega
        · show s.pendingEventCount = s.pendingEventCount - 1 + bitsRW (maskAt s fd)
          rw [hmask, hm, hb1]
          omega
      · rw [hev0] at ha
        exact absurd (by decide : (0 : Nat) &&& Dir.write.mask = 0) ha
    · -- events = 4: READ skips, WRITE fires
      rcases cancelAllFire_cases hf1 with ⟨-, hcp1⟩ | ⟨ha, -⟩
      swap
      · rw [hm] at ha
        exact absurd (by decide : (4 : Nat) &&& Dir.read.mask = 0) ha
      subst hcp1
      rcases cancelAllFire_cases hf2 with ⟨ha, -⟩ | ⟨-, cN, htr, hcp2⟩
      · rw [hm] at ha
        exact absurd ha (by decide)
      obtain ⟨-, hev, hfdN⟩ := triggerEvent_some htr
      rw [hm] at hev
      have hev0 : cN.events = 0 := by rw [hev]; decide
      subst hcp2
      have hb1 : bitsRW 4 = 1 := by decide
      have hp1 : 1 ≤ s.pendingEventCount := by
        rw [hcg, hm, hb1] at hple
        omega
      have hdecr : decr64 s.pendingEventCount = s.pendingEventCount - 1 :=
        decr64_eq (by omega) hpU
      rw [hdecr]
      have hc0 : ctxPop cN = 0 := by rw [ctxPop, hev0]; decide
      refine ⟨update_inv hI hfd ?_ ?_ ?_ hnt ?_, rfl, ?_⟩
      · rw [hev0]; exact Or.inl rfl
      · rw [hfdN]; exact fds_get hI hfd
      · rw [hev0]; simp [regOf]
      · rw [hc0, ← hI.pending, hcg, hm, hb1]
        omega
      · show s.pendingEventCount = s.pendingEventCount - 1 + bitsRW (maskAt s fd)
        rw [hmask, hm, hb1]
        omega
    · -- events = 5: both directions fire
      rcases cancelAllFire_cases hf1 with ⟨ha, -⟩ | ⟨-, cN₁, htr1, hcp1⟩
      · rw [hm] at ha
        exact absurd ha (by decide)
      obtain ⟨-, hev1, hfdN1⟩ := triggerEvent_some htr1
      rw [hm] at hev1
      have hev4 : cN₁.events = 4 := by rw [hev1]; decide
      subst hcp1
      rcases cancelAllFire_cases hf2 with ⟨ha, -⟩ | ⟨-, cN₂, htr2, hcp2⟩
      · rw [hev4] at ha
        exact absurd ha (by decide)
      obtain ⟨-, hev2, hfdN2⟩ := triggerEvent_some htr2
      rw [hev4] at hev2
      have hev20 : cN₂.events = 0 := by rw [hev2]; decide
      subst hcp2
      have hb2 : bitsRW 5 = 2 := by decide
      have hp2 : 2 ≤ s.pendingEventCount := by
        rw [hcg, hm, hb2] at hple
        omega
      have hd1 : decr64 s.pendingEventCount = s.pendingEventCount - 1 :=
        decr64_eq (by omega) hpU
      rw [hd1]
      have hd2 : decr64 (s.pendingEventCount - 1) = s.pendingEventCount - 1 - 1 :=
        decr64_eq (by omega) (by unfold U64 at hpU ⊢; omega)
      rw [hd2]
      have hsub : s.pendingEventCount - 1 - 1 = s.pendingEventCount - 2 := by omega
      rw [hsub]
      have hc0 : ctxPop cN₂ = 0 := by rw [ctxPop, hev20]; decide
      refine ⟨update_inv hI hfd ?_ ?_ ?_ hnt ?_, rfl, ?_⟩
      · rw [hev20]; exact Or.inl rfl
      · rw [hfdN2, hfdN1]; exact fds_get hI hfd
      · rw [hev20]; simp [regOf]
      · rw [hc0, ← hI.pending, hcg, hm, hb2]
        omega
      · show s.pendingEventCount = s.pendingEventCount - 2 + bitsRW (maskAt s fd)
        rw [hmask, hm, hb2]
        omega

theorem realEvents_maskOK (rep m : Nat) : maskOK (realEvents rep m) := by
  simp only [realEvents]
  split <;> split <;> split <;> decide

theorem idleFire_cases {d : Dir} {real : Nat} {cp cp' : FdContext × Nat}
    (h : idleFire d real cp = some cp') :
    (real &&& d.mask = 0 ∧ cp' = cp) ∨
    (real &&& d.mask ≠ 0 ∧ ∃ cN, cp.1.triggerEvent d = some cN ∧
      cp' = (cN, decr64 cp.2)) := by
  rw [idleFire] at h
  split at h
  · rename_i hb
    rcases htr : cp.1.triggerEvent d with _ | cN <;> rw [htr] at h
    · exact Option.noConfusion h
    · exact Or.inr ⟨hb, cN, rfl, (Option.some.inj h).symm⟩
  · rename_i hb
    exact Or.inl ⟨not_ne_iff.mp hb, (Option.some.inj h).symm⟩

theorem idleHandleEvent_some {i rep : Nat} {s s' : IOState} (hI : IOInv s)
    (h : idleHandleEvent i rep s = some s') :
    IOInv s' ∧ s'.tickleFd = s.tickleFd ∧
      s.pendingEventCount = s'.pendingEventCount +
        bitsRW (maskAt s i &&& realEvents rep (maskAt s i)) := by
  simp only [idleHandleEvent] at h
  split at h
  case isFalse => exact Option.noConfusion h
  rename_i hfd
  have hmaskr : maskAt s i = (s.fdContexts.get ⟨i, hfd⟩).events := by
    rw [maskAt, ctxAt_eq_get hfd]
  rw [hmaskr]
  split at h
  · rename_i hskip
    obtain rfl := Option.some.inj h
    refine ⟨hI, rfl, ?_⟩
    rw [hskip]
    have hz : bitsRW 0 = 0 := by decide
    omega
  · rename_i hskip
    have hm0 : (s.fdContexts.get ⟨i, hfd⟩).events ≠ 0 := fun h0 => hskip (by rw [h0]; simp)
    obtain ⟨hnt, hreg⟩ := armed_epoll hI hfd (by rw [hmaskr]; exact hm0)
    rw [maskAt, ctxAt_eq_get hfd] at hreg
    have hfdi := fds_get hI hfd
    rw [hfdi] at h
    have hcg : ctxPop (s.fdContexts.get ⟨i, hfd⟩) =
        bitsRW (s.fdContexts.get ⟨i, hfd⟩).events := rfl
    have hple := ctxPop_le_pending hI hfd
    have hpU := pending_lt_U64 hI
    have hmOK := masks_get hI hfd
    simp only [maskOK] at hmOK
    have hreOK := realEvents_maskOK rep (s.fdContexts.get ⟨i, hfd⟩).events
    simp only [maskOK] at hreOK
    rcases hmOK with hm | hm | hm | hm
    · exact absurd hm hm0
    · -- events = 1
      rcases hreOK with hre | hre | hre | hre
      · rw [hre] at hskip
        exact (hskip (by simp)).elim
      · -- (m, real) = (1, 1): READ fires, left = 0, DEL
        rw [hre, hm] at h
        rw [if_neg (by decide), epollCtl_del_of_some _ hreg] at h
        dsimp only at h
        rcases hifr1 : idleFire Dir.read 1
            (s.fdContexts.get ⟨i, hfd⟩, s.pendingEventCount) with _ | cp₁
        · rw [hifr1] at h
          exact Option.noConfusion h
        rw [hifr1] at h
        dsimp only at h
        rcases hifr2 : idleFire Dir.write 1 cp₁ with _ | cp₂
        · rw [hifr2] at h
          exact Option.noConfusion h
        rw [hifr2] at h
        dsimp only at h
        obtain rfl := Option.some.inj h
        rcases idleFire_cases hifr1 with ⟨ha, -⟩ | ⟨-, cN, htr, hcp1⟩
        · exact absurd ha (by decide)
        obtain ⟨-, hev, hfdN⟩ := triggerEvent_some htr
        rw [hm] at hev
        have hev0 : cN.events = 0 := by rw [hev]; decide
        subst hcp1
        rcases idleFire_cases hifr2 with ⟨-, hcp2⟩ | ⟨ha, -⟩
        swap
        · exact absurd (by decide : (1 : Nat) &&& Dir.write.mask = 0) ha
        subst hcp2
        have hb1 : bitsRW 1 = 1 := by decide
        have hp1 : 1 ≤ s.pendingEventCount := by
          rw [hcg, hm, hb1] at hple
          omega
        have hdecr : decr64 s.pendingEventCount = s.pendingEventCount - 1 :=
          decr64_eq (by omega) hpU
        rw [hdecr]
        have hc0 : ctxPop cN = 0 := by rw [ctxPop, hev0]; decide
        refine ⟨update_inv hI hfd ?_ ?_ ?_ hnt ?_, rfl, ?_⟩
        · rw [hev0]; exact Or.inl rfl
        · rw [hfdN]; exact fds_get hI hfd
        · rw [hev0]; decide
        · rw [hc0, ← hI.pending, hcg, hm, hb1]
          omega
        · rw [hre, hm]
          dsimp only
          have hb : bitsRW (1 &&& 1) = 1 := by decide
          omega
      · -- (m, real) = (1, 4): skip branch is impossible
        rw [hre, hm] at hskip
        exact (hskip (by decide)).elim
      · -- (m, real) = (1, 5): WRITE trigger aborts (assert fails); no successor
        rw [hre, hm] at h
        rw [if_neg (by decide), epollCtl_del_of_some _ hreg] at h
        dsimp only at h
        rcases hifr1 : idleFire Dir.read 5
            (s.fdContexts.get ⟨i, hfd⟩, s.pendingEventCount) with _ | cp₁
        · rw [hifr1] at h
          exact Option.noConfusion h
        rw [hifr1] at h
        dsimp only at h
        rcases hifr2 : idleFire Dir.write 5 cp₁ with _ | cp₂
        · rw [hifr2] at h
          exact Option.noConfusion h
        rw [hifr2] at h
        dsimp only at h
        obtain rfl := Option.some.inj h
        rcases idleFire_cases hifr1 with ⟨ha, -⟩ | ⟨-, cN, htr, hcp1⟩
        · exact absurd ha (by decide)
        obtain ⟨-, hev, -⟩ := triggerEvent_some htr
        rw [hm] at hev
        have hev0 : cN.events = 0 := by rw [hev]; decide
        subst hcp1
        rcases idleFire_cases hifr2 with ⟨ha, -⟩ | ⟨-, cN₂, htr2, -⟩
        · exact absurd ha (by decide)
        have := (triggerEvent_some htr2).1
        rw [hev0] at this
        exact absurd (by decide : (0 : Nat) &&& Dir.write.mask = 0) this
    · -- events = 4
      rcases hreOK with hre | hre | hre | hre
      · rw [hre] at hskip
        exact (hskip (by simp)).elim
      · -- (m, real) = (4, 1): skip branch is impossible
        rw [hre, hm] at hskip
        exact (hskip (by decide)).elim
      · -- (m, real) = (4, 4): WRITE fires, left = 0, DEL
        rw [hre, hm] at h
        rw [if_neg (by decide), epollCtl_del_of_some _ hreg] at h
        dsimp only at h
        rcases hifr1 : idleFire Dir.read 4
            (s.fdContexts.get ⟨i, hfd⟩, s.pendingEventCount) with _ | cp₁
        · rw [hifr1] at h
          exact Option.noConfusion h
        rw [hifr1] at h
        dsimp only at h
        rcases hifr2 : idleFire Dir.write 4 cp₁ with _ | cp₂
        · rw [hifr2] at h
          exact Option.noConfusion h
        rw [hifr2] at h
        dsimp only at h
        obtain rfl := Option.some.inj h
        rcases idleFire_cases hifr1 with ⟨-, hcp1⟩ | ⟨ha, -⟩
        swap
        · exact absurd (by decide : (4 : Nat) &&& Dir.read.mask = 0) ha
        subst hcp1
        rcases idleFire_cases hifr2 with ⟨ha, -⟩ | ⟨-, cN, htr, hcp2⟩
        · exact absurd ha (by decide)
        obtain ⟨-, hev, hfdN⟩ := triggerEvent_some htr
        rw [hm] at hev
        have hev0 : cN.events = 0 := by rw [hev]; decide
        subst hcp2
        have hb1 : bitsRW 4 = 1 := by decide
        have hp1 : 1 ≤ s.pendingEventCount := by
          rw [hcg, hm, hb1] at hple
          omega
        have hdecr : decr64 s.pendingEventCount = s.pendingEventCount - 1 :=
          decr64_eq (by omega) hpU
        rw [hdecr]
        have hc0 : ctxPop cN = 0 := by rw [ctxPop, hev0]; decide
        refine ⟨update_inv hI hfd ?_ ?_ ?_ hnt ?_, rfl, ?_⟩
        · rw [hev0]; exact Or.inl rfl
        · rw [hfdN]; exact fds_get hI hfd
        · rw [hev0]; decide
        · rw [hc0, ← hI.pending, hcg, hm, hb1]
          omega
        · rw [hre, hm]
          dsimp only
          have hb : bitsRW (4 &&& 4) = 1 := by decide
          omega
      · -- (m, real) = (4, 5): READ trigger aborts (assert fails); no successor
        rw [hre, hm] at h
        rw [if_neg (by decide), epollCtl_del_of_some _ hreg] at h
        dsimp only at h
        rcases hifr1 : idleFire Dir.read 5
            (s.fdContexts.get ⟨i, hfd⟩, s.pendingEventCount) with _ | cp₁
        · rw [hifr1] at h
          exact Option.noConfusion h
        rcases idleFire_cases hifr1 with ⟨ha, -⟩ | ⟨-, cN, htr, -⟩
        · exact absurd ha (by decide)
        have := (triggerEvent_some htr).1
        rw [hm] at this
        exact absurd (by decide : (4 : Nat) &&& Dir.read.mask = 0) this
    · -- events = 5
      rcases hreOK with hre | hre | hre | hre
      · rw [hre] at hskip
        exact (hskip (by simp)).elim
      · -- (m, real) = (5, 1): READ fires, left = 4, MOD
        rw [hre, hm] at h
        rw [if_pos (by decide), epollCtl_mod_of_some _ hreg] at h
        dsimp only at h
        rcases hifr1 : idleFire Dir.read 1
            (s.fdContexts.get ⟨i, hfd⟩, s.pendingEventCount) with _ | cp₁
        · rw [hifr1] at h
          exact Option.noConfusion h
        rw [hifr1] at h
        dsimp only at h
        rcases hifr2 : idleFire Dir.write 1 cp₁ with _ | cp₂
        · rw [hifr2] at h
          exact Option.noConfusion h
        rw [hifr2] at h
        dsimp only at h
        obtain rfl := Option.some.inj h
        rcases idleFire_cases hifr1 with ⟨ha, -⟩ | ⟨-, cN, htr, hcp1⟩
        · exact absurd ha (by decide)
        obtain ⟨-, hev, hfdN⟩ := triggerEvent_some htr
        rw [hm] at hev
        have hev4 : cN.events = 4 := by rw [hev]; decide
        subst hcp1
        rcases idleFire_cases hifr2 with ⟨-, hcp2⟩ | ⟨ha, -⟩
        swap
        · exact absurd (by decide : (1 : Nat) &&& Dir.write.mask = 0) ha
        subst hcp2
        have hb2 : bitsRW 5 = 2 := by decide
        have hp2 : 2 ≤ s.pendingEventCount := by
          rw [hcg, hm, hb2] at hple
          omega
        have hdecr : decr64 s.pendingEventCount = s.pendingEventCount - 1 :=
          decr64_eq (by omega) hpU
        rw [hdecr]
        have hc1 : ctxPop cN = 1 := by rw [ctxPop, hev4]; decide
        refine ⟨update_inv hI hfd ?_ ?_ ?_ hnt ?_, rfl, ?_⟩
        · rw [hev4]; exact Or.inr (Or.inr (Or.inl rfl))
        · rw [hfdN]; exact fds_get hI hfd
        · rw [hev4]; decide
        · rw [hc1, ← hI.pending, hcg, hm, hb2]
          omega
        · rw [hre, hm]
          dsimp only
          have hb : bitsRW (5 &&& 1) = 1 := by decide
          omega
      · -- (m, real) = (5, 4): WRITE fires, left = 1, MOD
        rw [hre, hm] at h
        rw [if_pos (by decide), epollCtl_mod_of_some _ hreg] at h
        dsimp only at h
        rcases hifr1 : idleFire Dir.read 4
            (s.fdContexts.get ⟨i, hfd⟩, s.pendingEventCount) with _ | cp₁
        · rw [hifr1] at h
          exact Option.noConfusion h
        rw [hifr1] at h
        dsimp only at h
        rcases hifr2 : idleFire Dir.write 4 cp₁ with _ | cp₂
        · rw [hifr2] at h
          exact Option.noConfusion h
        rw [hifr2] at h
        dsimp only at h
        obtain rfl := Option.some.inj h
        rcases idleFire_cases hifr1 with ⟨-, hcp1⟩ | ⟨ha, -⟩
        swap
        · exact absurd (by decide : (4 : Nat) &&& Dir.read.mask = 0) ha
        subst hcp1
        rcases idleFire_cases hifr2 with ⟨ha, -⟩ | ⟨-, cN, htr, hcp2⟩
        · exact absurd ha (by decide)
        obtain ⟨-, hev, hfdN⟩ := triggerEvent_some htr
        rw [hm] at hev
        have hev1 : cN.events = 1 := by rw [hev]; decide
        subst hcp2
        have hb2 : bitsRW 5 = 2 := by decide
        have hp2 : 2 ≤ s.pendingEventCount := by
          rw [hcg, hm, hb2] at hple
          omega
        have hdecr : decr64 s.pendingEventCount = s.pendingEventCount - 1 :=
          decr64_eq (by omega) hpU
        rw [hdecr]
        have hc1 : ctxPop cN = 1 := by rw [ctxPop, hev1]; decide
        refine ⟨update_inv hI hfd ?_ ?_ ?_ hnt ?_, rfl, ?_⟩
        · rw [hev1]; exact Or.inr (Or.inl rfl)
        · rw [hfdN]; exact fds_get hI hfd
        · rw [hev1]; decide
        · rw [hc1, ← hI.pending, hcg, hm, hb2]
          omega
        · rw [hre, hm]
          dsimp only
          have hb : bitsRW (5 &&& 4) = 1 := by decide
          omega
      · -- (m, real) = (5, 5): both fire, left = 0, DEL
        rw [hre, hm] at h
        rw [if_neg (by decide), epollCtl_del_of_some _ hreg] at h
        dsimp only at h
        rcases hifr1 : idleFire Dir.read 5
            (s.fdContexts.get ⟨i, hfd⟩, s.pendingEventCount) with _ | cp₁
        · rw [hifr1] at h
          exact Option.noConfusion h
        rw [hifr1] at h
        dsimp only at h
        rcases hifr2 : idleFire Dir.write 5 cp₁ with _ | cp₂
        · rw [hifr2] at h
          exact Option.noConfusion h
        rw [hifr2] at h
        dsimp only at h
        obtain rfl := Option.some.inj h
        rcases idleFire_cases hifr1 with ⟨ha, -⟩ | ⟨-, cN₁, htr1, hcp1⟩
        · exact absurd ha (by decide)
        obtain ⟨-, hev1, hfdN1⟩ := triggerEvent_some htr1
        rw [hm] at hev1
        have hev4 : cN₁.events = 4 := by rw [hev1]; decide
        subst hcp1
        rcases idleFire_cases hifr2 with ⟨ha, -⟩ | ⟨-, cN₂, htr2, hcp2⟩
        · exact absurd ha (by decide)
        obtain ⟨-, hev2, hfdN2⟩ := triggerEvent_some htr2
        rw [hev4] at hev2
        have hev20 : cN₂.events = 0 := by rw [hev2]; decide
        subst hcp2
        have hb2 : bitsRW 5 = 2 := by decide
        have hp2 : 2 ≤ s.pendingEventCount := by
          rw [hcg, hm, hb2] at hple
          omega
        have hd1 : decr64 s.pendingEventCount = s.pendingEventCount - 1 :=
          decr64_eq (by omega) hpU
        rw [hd1]
        have hd2 : decr64 (s.pendingEventCount - 1) = s.pendingEventCount - 1 - 1 :=
          decr64_eq (by omega) (by unfold U64 at hpU ⊢; omega)
        rw [hd2]
        have hsub : s.pendingEventCount - 1 - 1 = s.pendingEventCount - 2 := by omega
        rw [hsub]
        have hc0 : ctxPop cN₂ = 0 := by rw [ctxPop, hev20]; decide
        refine ⟨update_inv hI hfd ?_ ?_ ?_ hnt ?_, rfl, ?_⟩
        · rw [hev20]; exact Or.inl rfl
        · rw [hfdN2, hfdN1]; exact fds_get hI hfd
        · rw [hev20]; decide
        · rw [hc0, ← hI.pending, hcg, hm, hb2]
          omega
        · rw [hre, hm]
          dsimp only
          have hb : bitsRW (5 &&& 5) = 2 := by decide
          omega

theorem ioReachable_inv {s : IOState} (h : IOReachable s) : IOInv s := by
  induction h with
  | init tfd => exact ioInv_init tfd
  | stepAdd c fd d cb r s' hR h31 hstep ih => exact (addEvent_some ih h31 hstep).1
  | stepDel fd d r s' hR hstep ih => exact (delEvent_some ih hstep).1
  | stepCancel fd d r s' hR hstep ih => exact (cancelEvent_some ih hstep).1
  | stepCancelAll fd r s' hR hstep ih => exact (cancelAll_some ih hstep).1
  | stepIdle i rep s' hR hstep ih => exact (idleHandleEvent_some ih hstep).1

theorem lor_and_mask_ne {m : Nat} (d : Dir) (hok : maskOK m) :
    (m ||| d.mask) &&& d.mask ≠ 0 := by
  rcases hok with rfl | rfl | rfl | rfl <;> cases d <;> decide

theorem lor_andnot_mask {m : Nat} (d : Dir) (hok : maskOK m) (h0 : m &&& d.mask = 0) :
    (m ||| d.mask) &&& bnot32 d.mask = m := by
  rcases hok with rfl | rfl | rfl | rfl <;> cases d <;> revert h0 <;> decide

/-- Shape of the state a successful (r = 0) addEventCore produces: the
direction was unarmed, the context at fd gains the direction bit, the
kernel registration moves to the combined mask, and the prior kernel
registration mirrored the prior mask. -/
theorem addEventCore_zero_shape {c : Caller} {fd : Nat} {d : Dir} {cb : Option Nat}
    {s s₁ : IOState} (hI : IOInv s) (h : addEventCore c fd d cb s = some (0, s₁)) :
    ∃ (hfd : fd < s.fdContexts.length) (cN : FdContext),
      (s.fdContexts.get ⟨fd, hfd⟩).events &&& d.mask = 0 ∧
      cN.events = (s.fdContexts.get ⟨fd, hfd⟩).events ||| d.mask ∧
      s.epoll fd = regOf (s.fdContexts.get ⟨fd, hfd⟩).events ∧
      s₁ = { fdContexts := s.fdContexts.set fd cN
             pendingEventCount := incr64 s.pendingEventCount
             epoll := fun x => if x = fd then
                 some (EPOLLET ||| (s.fdContexts.get ⟨fd, hfd⟩).events ||| d.mask)
               else s.epoll x
             tickleFd := s.tickleFd } := by
  simp only [addEventCore] at h
  split at h
  case isFalse => exact Option.noConfusion h
  rename_i hfd
  refine ⟨hfd, ?_⟩
  split at h
  · simp only [Option.some.injEq, Prod.mk.injEq] at h
    exact absurd h.1 (by decide)
  · rename_i harm'
    have harm : (s.fdContexts.get ⟨fd, hfd⟩).events &&& d.mask = 0 := not_ne_iff.mp harm'
    split at h
    · simp only [Option.some.injEq, Prod.mk.injEq] at h
      exact absurd h.1 (by decide)
    · rename_i ep hep
      split at h
      · exact Option.noConfusion h
      · have key : s.epoll fd = regOf (s.fdContexts.get ⟨fd, hfd⟩).events ∧
            ep = fun x => if x = fd then
              some (EPOLLET ||| (s.fdContexts.get ⟨fd, hfd⟩).events ||| d.mask)
              else s.epoll x := by
          by_cases hev : (s.fdContexts.get ⟨fd, hfd⟩).events ≠ 0
          · rw [if_pos hev] at hep
            obtain ⟨-, hreg⟩ := armed_epoll hI hfd (by rwa [maskAt, ctxAt_eq_get hfd])
            rw [maskAt, ctxAt_eq_get hfd] at hreg
            refine ⟨?_, ?_⟩
            · rw [hreg, regOf, if_neg hev]
            · rw [epollCtl_mod_of_some _ hreg] at hep
              exact (Option.some.inj hep).symm
          · rw [if_neg hev] at hep
            obtain ⟨hnone, hep'⟩ := epollCtl_add_some hep
            have hev0 : (s.fdContexts.get ⟨fd, hfd⟩).events = 0 := not_ne_iff.mp hev
            refine ⟨?_, hep'⟩
            rw [hnone, hev0]
            rfl
        obtain ⟨hpre, rfl⟩ := key
        split at h
        · rename_i f
          simp only [Option.some.injEq, Prod.mk.injEq] at h
          refine ⟨_, harm, ?_, hpre, h.2.symm⟩
          simp
        · split at h
          · simp only [Option.some.injEq, Prod.mk.injEq] at h
            refine ⟨_, harm, ?_, hpre, h.2.symm⟩
            simp
          · exact Option.noConfusion h

/-- Running delEvent right after a successful addEvent of an unarmed
direction: it succeeds, clears exactly the added bit back to the prior
mask m, re-registers regOf m with the kernel, and undoes the pending
increment. -/
theorem delEvent_after_add (t : IOState) (d : Dir) {fd : Nat} {cN : FdContext} {m : Nat}
    (hfd : fd < t.fdContexts.length) (hok : maskOK m) (harm : m &&& d.mask = 0)
    (hcev : cN.events = m ||| d.mask) (hpb : t.pendingEventCount + 1 < U64) :
    ∃ s₂, delEvent fd d
        { fdContexts := t.fdContexts.set fd cN
          pendingEventCount := incr64 t.pendingEventCount
          epoll := fun x => if x = fd then some (EPOLLET ||| m ||| d.mask) else t.epoll x
          tickleFd := t.tickleFd } = some (true, s₂) ∧
      maskAt s₂ fd = m ∧ s₂.epoll fd = regOf m ∧
      s₂.pendingEventCount = t.pendingEventCount := by
  have hfd' : fd < (t.fdContexts.set fd cN).length := by
    rw [List.length_set]
    exact hfd
  have hget : (t.fdContexts.set fd cN).get ⟨fd, hfd'⟩ = cN := by
    have hd := getD_set_self t.fdContexts fd cN (mkFdContext fd) hfd
    rwa [List.getD_eq_get _ _ hfd'] at hd
  simp only [delEvent]
  rw [dif_pos hfd']
  dsimp only
  rw [hget, hcev, if_neg (lor_and_mask_ne d hok), lor_andnot_mask d hok harm]
  by_cases hm : m = 0
  · subst hm
    rw [if_neg (by decide)]
    have hreg : (fun x => if x = fd then some (EPOLLET ||| 0 ||| d.mask) else t.epoll x) fd
        = some (EPOLLET ||| 0 ||| d.mask) := by simp
    rw [epollCtl_del_of_some _ hreg]
    dsimp only
    refine ⟨_, rfl, ?_, ?_, ?_⟩
    · simp only [maskAt, ctxAt]
      rw [List.set_set, getD_set_self _ _ _ _ hfd]
      simp
    · simp [regOf]
    · show decr64 (incr64 t.pendingEventCount) = t.pendingEventCount
      rw [incr64_eq hpb, decr64_eq (by omega) (by omega)]
      omega
  · rw [if_pos hm]
    have hreg : (fun x => if x = fd then some (EPOLLET ||| m ||| d.mask) else t.epoll x) fd
        = some (EPOLLET ||| m ||| d.mask) := by simp
    rw [epollCtl_mod_of_some _ hreg]
    dsimp only
    refine ⟨_, rfl, ?_, ?_, ?_⟩
    · simp only [maskAt, ctxAt]
      rw [List.set_set, getD_set_self _ _ _ _ hfd]
      simp
    · simp [regOf, hm]
    · show decr64 (incr64 t.pendingEventCount) = t.pendingEventCount
      rw [incr64_eq hpb, decr64_eq (by omega) (by omega)]
      omega

/-- C1: in every reachable IOManager state the pending event counter
equals the sum over all fd contexts of the number of armed directions,
and each operation moves it by exactly the number of directions it
arms or clears: a successful addEvent adds one, a clearing delEvent or
cancelEvent removes one, cancelAll removes one per armed direction of
the fd, and the idle loop's handling of one epoll report removes one
per direction it fires. -/
theorem pending_event_count_invariant {s : IOState} (hR : IOReachable s) :
    s.pendingEventCount = pendingSum s.fdContexts ∧
    (∀ c fd d cb s', fd < 2 ^ 31 → addEvent c fd d cb s = some (0, s') →
      s'.pendingEventCount = s.pendingEventCount + 1) ∧
    (∀ fd d s', delEvent fd d s = some (true, s') →
      s.pendingEventCount = s'.pendingEventCount + 1) ∧
    (∀ fd d s', cancelEvent fd d s = some (true, s') →
      s.pendingEventCount = s'.pendingEventCount + 1) ∧
    (∀ fd r s', cancelAll fd s = some (r, s') →
      s.pendingEventCount = s'.pendingEventCount + bitsRW (maskAt s fd)) ∧
    (∀ i rep s', idleHandleEvent i rep s = some s' →
      s.pendingEventCount = s'.pendingEventCount +
        bitsRW (maskAt s i &&& realEvents rep (maskAt s i))) := by
  have hI := ioReachable_inv hR
  refine ⟨hI.pending, ?_, ?_, ?_, ?_, ?_⟩
  · intro c fd d cb s' h31 h
    exact (addEvent_some hI h31 h).2.2.1 rfl
  · intro fd d s' h
    rcases (delEvent_some hI h).2.2 with ⟨-, he⟩ | ⟨hf, -⟩
    · exact he
    · exact absurd hf (by decide)
  · intro fd d s' h
    rcases (cancelEvent_some hI h).2.2 with ⟨-, he⟩ | ⟨hf, -⟩
    · exact he
    · exact absurd hf (by decide)
  · intro fd r s' h
    exact (cancelAll_some hI h).2.2
  · intro i rep s' h
    exact (idleHandleEvent_some hI h).2.2

theorem pending_event_count_invariant_witness :
    (initIOState 3).pendingEventCount = pendingSum (initIOState 3).fdContexts :=
  (pending_event_count_invariant (IOReachable.init 3)).1

/-- C2: arming a direction that is already armed on its fd context makes
addEvent return -1 and leave the whole manager state (armed mask, kernel
registration, pending counter, stored continuations) untouched. -/
theorem addEvent_already_armed (c : Caller) (d : Dir) (cb : Option Nat) {fd : Nat}
    {s : IOState} (h : maskAt s fd &&& d.mask ≠ 0) :
    addEvent c fd d cb s = some (-1, s) := by
  have hfd : fd < s.fdContexts.length := by
    by_contra hge
    rw [maskAt_zero_of_ge (Nat.le_of_not_lt hge)] at h
    exact h (by simp)
  rw [maskAt, ctxAt_eq_get hfd] at h
  rw [addEvent, if_pos hfd, addEventCore, dif_pos hfd]
  dsimp only
  rw [if_pos h]

theorem addEvent_already_armed_witness :
    addEvent ⟨7, 3, true⟩ 0 Dir.read none
        { fdContexts := [⟨0, 1, ⟨some 7, none, some 5⟩, emptyEventContext⟩]
          pendingEventCount := 1
          epoll := fun x => if x = 0 then some (EPOLLET ||| 1) else none
          tickleFd := 9 } =
      some (-1,
        { fdContexts := [⟨0, 1, ⟨some 7, none, some 5⟩, emptyEventContext⟩]
          pendingEventCount := 1
          epoll := fun x => if x = 0 then some (EPOLLET ||| 1) else none
          tickleFd := 9 }) :=
  addEvent_already_armed _ _ _ (by decide)

/-- C3: from any reachable state, a successful addEvent of an unarmed
direction followed by delEvent of the same fd and direction succeeds and
restores the fd's armed mask, its kernel registration, and the pending
event counter to their values before the addEvent. -/
theorem addEvent_delEvent_roundtrip (c : Caller) (fd : Nat) (d : Dir) (cb : Option Nat)
    {s s₁ : IOState} (hR : IOReachable s) (h31 : fd < 2 ^ 31)
    (hadd : addEvent c fd d cb s = some (0, s₁)) :
    ∃ s₂, delEvent fd d s₁ = some (true, s₂) ∧
      maskAt s₂ fd = maskAt s fd ∧ s₂.epoll fd = s.epoll fd ∧
      s₂.pendingEventCount = s.pendingEventCount := by
  have hI := ioReachable_inv hR
  rw [addEvent] at hadd
  split at hadd
  · obtain ⟨hfd, cN, harm, hcev, hpre, rfl⟩ := addEventCore_zero_shape hI hadd
    have hok := masks_get hI hfd
    have hpb : s.pendingEventCount + 1 < U64 := by
      have h1 := pendingSum_le s.fdContexts
      have h2 := hI.lenUB
      have h32 : (2 : Nat) ^ 32 = 4294967296 := by norm_num
      have hU : U64 = 18446744073709551616 := by norm_num [U64]
      rw [hI.pending]
      omega
    obtain ⟨s₂, hdel, hm2, he2, hp2⟩ := delEvent_after_add s d hfd hok harm hcev hpb
    refine ⟨s₂, hdel, ?_, ?_, hp2⟩
    · rw [hm2, maskAt, ctxAt_eq_get hfd]
    · rw [he2, hpre]
  · rename_i hge'
    have hge : s.fdContexts.length ≤ fd := Nat.le_of_not_lt hge'
    have h31' : (2 : Nat) ^ 31 = 2147483648 := by norm_num
    have h32 : (2 : Nat) ^ 32 = 4294967296 := by norm_num
    have hub : 3 * fd / 2 ≤ 2 ^ 32 := by omega
    have hgen : s.fdContexts.length ≤ 3 * fd / 2 := by omega
    have hI₂ := ioInv_resize hI hgen hub
    obtain ⟨hfd, cN, harm, hcev, hpre, rfl⟩ := addEventCore_zero_shape hI₂ hadd
    have hok := masks_get hI₂ hfd
    have hpb : ({ s with fdContexts := contextResize s.fdContexts (3 * fd / 2) } :
        IOState).pendingEventCount + 1 < U64 := by
      show s.pendingEventCount + 1 < U64
      have h1 := pendingSum_le s.fdContexts
      have h2 := hI.lenUB
      have hU : U64 = 18446744073709551616 := by norm_num [U64]
      rw [hI.pending]
      omega
    obtain ⟨s₂, hdel, hm2, he2, hp2⟩ := delEvent_after_add
      { s with fdContexts := contextResize s.fdContexts (3 * fd / 2) } d hfd hok harm hcev hpb
    refine ⟨s₂, hdel, ?_, ?_, ?_⟩
    · rw [hm2, maskAt_zero_of_ge hge]
      show ((contextResize s.fdContexts (3 * fd / 2)).get ⟨fd, hfd⟩).events = 0
      rw [contextResize_get, dif_neg (Nat.not_lt.mpr hge)]
      rfl
    · rw [he2, ← hpre]
    · exact hp2

theorem addEvent_delEvent_roundtrip_witness :
    ∃ s₂, delEvent 0 Dir.read sAfterAdd = some (true, s₂) ∧
      maskAt s₂ 0 = maskAt (initIOState 100) 0 ∧
      s₂.epoll 0 = (initIOState 100).epoll 0 ∧
      s₂.pendingEventCount = (initIOState 100).pendingEventCount :=
  addEvent_delEvent_roundtrip ⟨7, 3, true⟩ 0 Dir.read (some 5) (IOReachable.init 100)
    (by decide) rfl

end nsCoroutine
